import Mathlib

/-!
Verification of the quota-driven resumable generation loop and tolerant JSON
parser of `datasetgeneration.py` (Multilingual-Legal-POSCO-Bot).

The Python source is shallowly embedded: pure fragments become Lean functions,
the stateful main loop becomes explicit state passing over a `GenState`
record, the external model endpoint and the random number generator are
oracles supplied through traces, and fallible code returns `Option`.
`json.loads` is modelled by a recursive-descent parser `jsonLoads` over the
JSON fragment the program manipulates (objects, arrays, strings with the
common escapes, integer numerals, booleans, null; `\u` escapes and floats
are outside the modelled fragment).
-/

namespace POSCO

mutual

/-- JSON values, mirroring what `json.loads` returns for the modelled
fragment.  Strings are kept as `List Char`.  Mutual inductives are used so
that structural mutual recursion and induction are available. -/
inductive Json where
  | null : Json
  | bool : Bool → Json
  | num : Int → Json
  | str : List Char → Json
  | arr : JsonArr → Json
  | obj : JsonObj → Json
  deriving DecidableEq

inductive JsonArr where
  | nil : JsonArr
  | cons : Json → JsonArr → JsonArr
  deriving DecidableEq

/-- Association list of object fields, in insertion order (first occurrence
keeps its position, as for a Python `dict`). -/
inductive JsonObj where
  | nil : JsonObj
  | cons : List Char → Json → JsonObj → JsonObj
  deriving DecidableEq

end

/-- `dict.get k` / `obj[k]`: value of the first field named `k`. -/
def JsonObj.get (k : List Char) : JsonObj → Option Json
  | .nil => none
  | .cons k' v rest => if k' = k then some v else rest.get k

/-- Python `dict` assignment `obj[k] = v`: updates the first occurrence in
place, otherwise appends at the end. -/
def JsonObj.set (k : List Char) (v : Json) : JsonObj → JsonObj
  | .nil => .cons k v .nil
  | .cons k' v' rest => if k' = k then .cons k' v rest else .cons k' v' (rest.set k v)

/-- Python `del obj[k]`: removes the field named `k` (all occurrences; the
association lists built by the parser and the program carry distinct keys). -/
def JsonObj.del (k : List Char) : JsonObj → JsonObj
  | .nil => .nil
  | .cons k' v rest => if k' = k then rest.del k else .cons k' v (rest.del k)

/-- `k in obj`. -/
def JsonObj.hasKey (k : List Char) (o : JsonObj) : Bool :=
  (o.get k).isSome

/-- Prepend the member `(k, v)` to the members `o` that follow it, with
Python `dict` duplicate-key semantics: the first occurrence of a key keeps
its position, the last value wins. -/
def JsonObj.consKey (k : List Char) (v : Json) (o : JsonObj) : JsonObj :=
  match o.get k with
  | some v' => .cons k v' (o.del k)
  | none => .cons k v o

/-! ### Character helpers (written via code points to keep literals unambiguous) -/
def cQuote : Char := Char.ofNat 34
def cApos : Char := Char.ofNat 39
def cBackslash : Char := Char.ofNat 92
def cLBrace : Char := Char.ofNat 123
def cRBrace : Char := Char.ofNat 125
def cLBrack : Char := Char.ofNat 91
def cRBrack : Char := Char.ofNat 93
def cBacktick : Char := Char.ofNat 96
def cSlash : Char := Char.ofNat 47
def cStar : Char := Char.ofNat 42
def cComma : Char := Char.ofNat 44
def cColon : Char := Char.ofNat 58
def cMinus : Char := Char.ofNat 45
def cNewline : Char := Char.ofNat 10

/-- JSON whitespace (the same class `\s` matches on these inputs). -/
def isWs (c : Char) : Bool :=
  c = Char.ofNat 32 || c = Char.ofNat 9 || c = Char.ofNat 10 || c = Char.ofNat 13

def skipWs : List Char → List Char
  | [] => []
  | c :: rest => if isWs c then skipWs rest else c :: rest

def isDigit (c : Char) : Bool := Char.ofNat 48 ≤ c ∧ c ≤ Char.ofNat 57

def digitVal (c : Char) : Nat := c.toNat - 48

/-! ### `json.loads`, modelled as a recursive-descent parser

The modelled fragment: objects, arrays, double-quoted strings with the
escapes `\" \\ \/ \b \f \n \r \t`, integer numerals (with JSON's
no-leading-zero rule), `true`, `false`, `null`.  Floats and `\u` escapes are
outside the fragment; inputs using them parse to `none` here. -/
/-- Parse the body of a string literal after the opening quote; returns the
decoded content and the input after the closing quote. -/
def parseStringBody : List Char → Option (List Char × List Char)
  | [] => none
  | c :: rest =>
    if c = cQuote then some ([], rest)
    else if c = cBackslash then
      match rest with
      | [] => none
      | e :: rest2 =>
        let ch? : Option Char :=
          if e = cQuote then some cQuote
          else if e = cBackslash then some cBackslash
          else if e = cSlash then some cSlash
          else if e = Char.ofNat 98 then some (Char.ofNat 8)
          else if e = Char.ofNat 102 then some (Char.ofNat 12)
          else if e = Char.ofNat 110 then some (Char.ofNat 10)
          else if e = Char.ofNat 114 then some (Char.ofNat 13)
          else if e = Char.ofNat 116 then some (Char.ofNat 9)
          else none
        match ch? with
        | none => none
        | some ch =>
          match parseStringBody rest2 with
          | none => none
          | some (s, r) => some (ch :: s, r)
    else if c.toNat < 32 then none
    else
      match parseStringBody rest with
      | none => none
      | some (s, r) => some (c :: s, r)

/-- Consume a maximal run of digits. -/
def takeDigits : List Char → (List Char × List Char)
  | [] => ([], [])
  | c :: rest =>
    if isDigit c then
      let (ds, r) := takeDigits rest
      (c :: ds, r)
    else ([], c :: rest)

def digitsToNat (ds : List Char) : Nat :=
  ds.foldl (fun acc c => acc * 10 + digitVal c) 0

/-- Parse a JSON integer numeral (sign, digits, no leading zeros). -/
def parseNumber (l : List Char) : Option (Int × List Char) :=
  let (neg, l') :=
    match l with
    | c :: rest => if c = cMinus then (true, rest) else (false, l)
    | [] => (false, [])
  match takeDigits l' with
  | ([], _) => none
  | (ds, r) =>
    if ds.length > 1 && ds.headI = Char.ofNat 48 then none
    else
      let n : Int := Int.ofNat (digitsToNat ds)
      some (if neg then -n else n, r)

mutual

def parseVal : Nat → List Char → Option (Json × List Char)
  | 0, _ => none
  | Nat.succ fuel, l =>
    match skipWs l with
    | [] => none
    | c :: rest =>
      if c = cLBrace then
        match skipWs rest with
        | d :: rest2 =>
          if d = cRBrace then some (.obj .nil, rest2)
          else
            match parseObjTail fuel (d :: rest2) with
            | none => none
            | some (o, r) => some (.obj o, r)
        | [] => none
      else if c = cLBrack then
        match skipWs rest with
        | d :: rest2 =>
          if d = cRBrack then some (.arr .nil, rest2)
          else
            match parseArrTail fuel (d :: rest2) with
            | none => none
            | some (a, r) => some (.arr a, r)
        | [] => none
      else if c = cQuote then
        match parseStringBody rest with
        | none => none
        | some (s, r) => some (.str s, r)
      else if c = Char.ofNat 116 then
        match rest with
        | r :: u :: e :: r2 =>
          if r = Char.ofNat 114 && u = Char.ofNat 117 && e = Char.ofNat 101 then
            some (.bool true, r2)
          else none
        | _ => none
      else if c = Char.ofNat 102 then
        match rest with
        | a :: ls :: s :: e :: r2 =>
          if a = Char.ofNat 97 && ls = Char.ofNat 108 && s = Char.ofNat 115 &&
              e = Char.ofNat 101 then
            some (.bool false, r2)
          else none
        | _ => none
      else if c = Char.ofNat 110 then
        match rest with
        | u :: l1 :: l2 :: r2 =>
          if u = Char.ofNat 117 && l1 = Char.ofNat 108 && l2 = Char.ofNat 108 then
            some (.null, r2)
          else none
        | _ => none
      else if c = cMinus || isDigit c then
        match parseNumber (c :: rest) with
        | none => none
        | some (n, r) => some (.num n, r)
      else none

/-- Non-empty list of array items: `value (, value)* ]`. -/
def parseArrTail : Nat → List Char → Option (JsonArr × List Char)
  | 0, _ => none
  | Nat.succ fuel, l =>
    match parseVal fuel l with
    | none => none
    | some (v, r) =>
      match skipWs r with
      | c :: rest =>
        if c = cComma then
          match parseArrTail fuel rest with
          | none => none
          | some (vs, r2) => some (.cons v vs, r2)
        else if c = cRBrack then some (.cons v .nil, rest)
        else none
      | [] => none

/-- Non-empty list of object members: `"key" : value (, member)* \x7d`.
Duplicate keys follow Python `dict` semantics: first occurrence keeps its
position, the last value wins (achieved here with `JsonObj.set`). -/
def parseObjTail : Nat → List Char → Option (JsonObj × List Char)
  | 0, _ => none
  | Nat.succ fuel, l =>
    match skipWs l with
    | c :: rest =>
      if c = cQuote then
        match parseStringBody rest with
        | none => none
        | some (k, r) =>
          match skipWs r with
          | d :: rest2 =>
            if d = cColon then
              match parseVal fuel rest2 with
              | none => none
              | some (v, r2) =>
                match skipWs r2 with
                | e :: rest3 =>
                  if e = cComma then
                    match parseObjTail fuel rest3 with
                    | none => none
                    | some (o, r3) => some (o.consKey k v, r3)
                  else if e = cRBrace then some (.cons k v .nil, rest3)
                  else none
                | [] => none
            else none
          | [] => none
      else none
    | [] => none

end

/-- `json.loads`: parse one JSON value and require the rest of the input to
be whitespace. -/
def jsonLoads (l : List Char) : Option Json :=
  match parseVal (l.length + 1) l with
  | none => none
  | some (v, r) => if skipWs r = [] then some v else none

/-! ### `clean_json_text`

Each `re.sub` of the source becomes a left-to-right scanner that copies
unmatched text verbatim and resumes after each replacement, matching
`re.sub` semantics.  Scanners that resume after a multi-character match use
an explicit fuel argument (one unit per step; `length + 1` always
suffices). -/
/-- `re.sub(r'[\x00-\x1f]+', '', t)`. -/
def removeControl (l : List Char) : List Char :=
  l.filter (fun c => 32 ≤ c.toNat)

/-- One step of `re.sub(r',\s*([}\]])', r'\1', t)`. -/
def removeTrailingCommasAux : Nat → List Char → List Char
  | 0, l => l
  | _ + 1, [] => []
  | fuel + 1, c :: rest =>
    if c = cComma then
      match skipWs rest with
      | d :: rest2 =>
        if d = cRBrace || d = cRBrack then d :: removeTrailingCommasAux fuel rest2
        else c :: removeTrailingCommasAux fuel rest
      | [] => c :: removeTrailingCommasAux fuel rest
    else c :: removeTrailingCommasAux fuel rest

def removeTrailingCommas (l : List Char) : List Char :=
  removeTrailingCommasAux (l.length + 1) l

/-- Content up to the first apostrophe and the text after it (`[^']*'`). -/
def splitAtApos : List Char → Option (List Char × List Char)
  | [] => none
  | c :: rest =>
    if c = cApos then some ([], rest)
    else (splitAtApos rest).map (fun p => (c :: p.1, p.2))

/-- `re.sub(r"'([^']*)':", r'"\1":', t)` (single-quoted keys). -/
def fixQuoteKeysAux : Nat → List Char → List Char
  | 0, l => l
  | _ + 1, [] => []
  | fuel + 1, c :: rest =>
    if c = cApos then
      match splitAtApos rest with
      | some (content, d :: rest2) =>
        if d = cColon then
          cQuote :: content ++ cQuote :: cColon :: fixQuoteKeysAux fuel rest2
        else c :: fixQuoteKeysAux fuel rest
      | some (_, []) => c :: fixQuoteKeysAux fuel rest
      | none => c :: fixQuoteKeysAux fuel rest
    else c :: fixQuoteKeysAux fuel rest

def fixQuoteKeys (l : List Char) : List Char :=
  fixQuoteKeysAux (l.length + 1) l

/-- `re.sub(r":\s*'([^']*)'", r': "\1"', t)` (single-quoted values: the
replacement normalises the whitespace after the colon to one space). -/
def fixQuoteValsAux : Nat → List Char → List Char
  | 0, l => l
  | _ + 1, [] => []
  | fuel + 1, c :: rest =>
    if c = cColon then
      match skipWs rest with
      | a :: rest2 =>
        if a = cApos then
          match splitAtApos rest2 with
          | some (content, rest3) =>
            cColon :: Char.ofNat 32 :: cQuote :: content ++ cQuote ::
              fixQuoteValsAux fuel rest3
          | none => c :: fixQuoteValsAux fuel rest
        else c :: fixQuoteValsAux fuel rest
      | [] => c :: fixQuoteValsAux fuel rest
    else c :: fixQuoteValsAux fuel rest

def fixQuoteVals (l : List Char) : List Char :=
  fixQuoteValsAux (l.length + 1) l

/-- Suffix starting at the first newline (kept: `$` does not consume it). -/
def dropToNewline : List Char → List Char
  | [] => []
  | c :: rest => if c = cNewline then c :: rest else dropToNewline rest

/-- `re.sub(r'//.*?$', '', t, flags=re.MULTILINE)`. -/
def removeLineCommentsAux : Nat → List Char → List Char
  | 0, l => l
  | _ + 1, [] => []
  | fuel + 1, c :: rest =>
    match rest with
    | d :: rest2 =>
      if c = cSlash && d = cSlash then
        removeLineCommentsAux fuel (dropToNewline rest2)
      else c :: removeLineCommentsAux fuel rest
    | [] => [c]

def removeLineComments (l : List Char) : List Char :=
  removeLineCommentsAux (l.length + 1) l

/-- Suffix after the first occurrence of `*/`. -/
def afterBlockEnd : List Char → Option (List Char)
  | [] => none
  | c :: rest =>
    match rest with
    | d :: rest2 =>
      if c = cStar && d = cSlash then some rest2
      else afterBlockEnd rest
    | [] => none

/-- `re.sub(r'/\*.*?\*/', '', t, flags=re.DOTALL)` (non-greedy: the nearest
terminator ends the comment). -/
def removeBlockCommentsAux : Nat → List Char → List Char
  | 0, l => l
  | _ + 1, [] => []
  | fuel + 1, c :: rest =>
    match rest with
    | d :: rest2 =>
      if c = cSlash && d = cStar then
        match afterBlockEnd rest2 with
        | some after => removeBlockCommentsAux fuel after
        | none => c :: removeBlockCommentsAux fuel rest
      else c :: removeBlockCommentsAux fuel rest
    | [] => [c]

def removeBlockComments (l : List Char) : List Char :=
  removeBlockCommentsAux (l.length + 1) l

/-- `clean_json_text`, applying the source's substitutions in order. -/
def clean_json_text (l : List Char) : List Char :=
  removeBlockComments (removeLineComments (fixQuoteVals (fixQuoteKeys
    (removeTrailingCommas (removeControl l)))))

/-! ### `safe_parse_json` strategies -/
/-- Does `\s*` followed by a fence opening occur here (`\s*```` ``` ````)? -/
def fenceFollows (l : List Char) : Bool :=
  match skipWs l with
  | a :: b :: c :: _ => a = cBacktick && b = cBacktick && c = cBacktick
  | _ => false

/-- Lazy `.*?\}` search against a following `\s*```` ``` ````: the body up to
and including the first closing brace whose suffix passes `fenceFollows`. -/
def lazyBraceEnd : List Char → Option (List Char)
  | [] => none
  | c :: rest =>
    if c = cRBrace && fenceFollows rest then some [c]
    else (lazyBraceEnd rest).map (fun sp => c :: sp)

/-- Try the fenced-block pattern right after an opening `` ``` ``:
`(?:json)?\s*(\{.*?\})\s*```` ``` ````, returning the parenthesised group.
The optional `json` is greedy, with backtracking to the empty branch. -/
def tryFenceAt (useJson : Bool) (l : List Char) : Option (List Char) :=
  let tryFrom : List Char → Option (List Char) := fun t =>
    match skipWs t with
    | c :: rest =>
      if c = cLBrace then (lazyBraceEnd rest).map (fun sp => cLBrace :: sp)
      else none
    | [] => none
  if useJson then
    match l with
    | j :: s :: o :: n :: rest =>
      if j = Char.ofNat 106 && s = Char.ofNat 115 && o = Char.ofNat 111 &&
          n = Char.ofNat 110 then
        match tryFrom rest with
        | some g => some g
        | none => tryFrom l
      else tryFrom l
    | _ => tryFrom l
  else tryFrom l

/-- `re.search` for a fenced pattern: leftmost start position wins; a failed
attempt advances the start by one character. -/
def findFenced (useJson : Bool) : List Char → Option (List Char)
  | [] => none
  | c :: rest =>
    if c = cBacktick then
      match rest with
      | b :: c2 :: rest2 =>
        if b = cBacktick && c2 = cBacktick then
          match tryFenceAt useJson rest2 with
          | some g => some g
          | none => findFenced useJson rest
        else findFenced useJson rest
      | _ => none
    else findFenced useJson rest

/-- Strategy 1 (one pattern): extract, clean, parse. -/
def fenceParse (useJson : Bool) (l : List Char) : Option Json :=
  match findFenced useJson l with
  | some g => jsonLoads (clean_json_text g)
  | none => none

/-- Suffix starting at the first `\x7b` (`text.find("{")`). -/
def dropToLBrace : List Char → Option (List Char)
  | [] => none
  | c :: rest => if c = cLBrace then some (c :: rest) else dropToLBrace rest

/-- Strategy 2 brace counter: starting at a `\x7b`, include characters until
the count first returns to zero (`none` if it never does). -/
def braceSpanAux : List Char → Nat → Option (List Char)
  | [], _ => none
  | c :: rest, depth =>
    if c = cLBrace then (braceSpanAux rest (depth + 1)).map (fun sp => c :: sp)
    else if c = cRBrace then
      if depth = 1 then some [c]
      else (braceSpanAux rest (depth - 1)).map (fun sp => c :: sp)
    else (braceSpanAux rest depth).map (fun sp => c :: sp)

/-- Strategy 2: balanced-brace span from the first `\x7b`, cleaned, parsed. -/
def strategy2 (l : List Char) : Option Json :=
  match dropToLBrace l with
  | none => none
  | some s =>
    match braceSpanAux s 0 with
    | none => none
    | some span => jsonLoads (clean_json_text span)

/-- Matching engine for `\{[^{}]*(?:\{[^{}]*\}[^{}]*)*\}` after its initial
`\{`: state 1 is the outer level, state 2 one nested level; a second nested
`\x7b` makes the whole attempt fail (the regex admits no deeper nesting). -/
def depth2After : List Char → Nat → Option (List Char)
  | [], _ => none
  | c :: rest, st =>
    if c = cLBrace then
      if st = 1 then (depth2After rest 2).map (fun sp => c :: sp)
      else none
    else if c = cRBrace then
      if st = 1 then some [c]
      else (depth2After rest 1).map (fun sp => c :: sp)
    else (depth2After rest st).map (fun sp => c :: sp)

/-- `re.search` of the strategy-3 pattern: leftmost matching start. -/
def findDepth2 : List Char → Option (List Char)
  | [] => none
  | c :: rest =>
    if c = cLBrace then
      match depth2After rest 1 with
      | some sp => some (c :: sp)
      | none => findDepth2 rest
    else findDepth2 rest

/-- Strategy 3: regex span, cleaned, parsed (a single attempt). -/
def strategy3 (l : List Char) : Option Json :=
  match findDepth2 l with
  | none => none
  | some span => jsonLoads (clean_json_text span)

/-- Prefix of `l` through the last `\x7d` of `l` (`text.rfind("}")`). -/
def upToLastRBrace (l : List Char) : Option (List Char) :=
  match l.reverse.dropWhile (fun c => ¬ c = cRBrace) with
  | [] => none
  | r => some r.reverse

/-- Strategy 4: first `\x7b` to last `\x7d`, cleaned, parsed. -/
def strategy4 (l : List Char) : Option Json :=
  match dropToLBrace l with
  | none => none
  | some s =>
    match upToLastRBrace s with
    | none => none
    | some span => jsonLoads (clean_json_text span)

/-- Python `str.strip()` whitespace (ASCII fragment). -/
def pyWs (c : Char) : Bool :=
  isWs c || c = Char.ofNat 11 || c = Char.ofNat 12

def pyStrip (l : List Char) : List Char :=
  ((l.dropWhile pyWs).reverse.dropWhile pyWs).reverse

/-- `safe_parse_json`: strip, then try the strategies in source order; every
parse failure falls through to the next strategy; `none` if all fail. -/
def safe_parse_json (text : String) : Option Json :=
  if text.data = [] then none
  else
    let l := pyStrip text.data
    match fenceParse true l with
    | some v => some v
    | none =>
    match fenceParse false l with
    | some v => some v
    | none =>
    match strategy2 l with
    | some v => some v
    | none =>
    match strategy3 l with
    | some v => some v
    | none => strategy4 l

/-- Scratch: object text whose string value contains a fenced empty object. -/
def ce8bare : String := "\x7b\x22a\x22: \x22```json \x7b\x7d ```\x22, \x22b\x22: 1\x7d"

def ce8comma : String := "\x7b\x22a\x22: \x22```json \x7b\x7d ```\x22, \x22b\x22: 1,\x7d"

def ce8fenced : String := "```json" ++ "\n" ++ ce8comma ++ "\n" ++ "```"

def ce8full : Json :=
  .obj (.cons ("a").data (.str ("```json \x7b\x7d ```").data)
    (.cons ("b").data (.num 1) .nil))

/-! ### Configuration (CONFIG section of the source) -/
def BUCKETS : List (String × Nat × Nat) :=
  [("A", 2, 3), ("B", 3, 4), ("C", 4, 5), ("D", 5, 6)]

def COMPLEXITY_LEVELS : List String := ["layman", "intermediate", "professional"]

def SAMPLES_PER_LANGUAGE : Nat := 400

def TARGET_SAMPLES : Nat := SAMPLES_PER_LANGUAGE

/-- The `DISTRIBUTION` table, in declaration (= `dict` iteration) order. -/
def DISTRIBUTION : List ((String × String × String) × Nat) :=
  [(("hindi", "layman", "A"), 33),
   (("hindi", "layman", "B"), 33),
   (("hindi", "layman", "C"), 34),
   (("hindi", "layman", "D"), 33),
   (("hindi", "intermediate", "A"), 34),
   (("hindi", "intermediate", "B"), 33),
   (("hindi", "intermediate", "C"), 33),
   (("hindi", "intermediate", "D"), 33),
   (("hindi", "professional", "A"), 33),
   (("hindi", "professional", "B"), 34),
   (("hindi", "professional", "C"), 33),
   (("hindi", "professional", "D"), 33),
   (("english", "layman", "A"), 33),
   (("english", "layman", "B"), 34),
   (("english", "layman", "C"), 33),
   (("english", "layman", "D"), 33),
   (("english", "intermediate", "A"), 33),
   (("english", "intermediate", "B"), 33),
   (("english", "intermediate", "C"), 34),
   (("english", "intermediate", "D"), 33),
   (("english", "professional", "A"), 34),
   (("english", "professional", "B"), 33),
   (("english", "professional", "C"), 33),
   (("english", "professional", "D"), 34),
   (("code_mixed", "layman", "A"), 34),
   (("code_mixed", "layman", "B"), 33),
   (("code_mixed", "layman", "C"), 33),
   (("code_mixed", "layman", "D"), 33),
   (("code_mixed", "intermediate", "A"), 33),
   (("code_mixed", "intermediate", "B"), 33),
   (("code_mixed", "intermediate", "C"), 33),
   (("code_mixed", "intermediate", "D"), 34),
   (("code_mixed", "professional", "A"), 33),
   (("code_mixed", "professional", "B"), 34),
   (("code_mixed", "professional", "C"), 34),
   (("code_mixed", "professional", "D"), 33)]

/-- `DISTRIBUTION_FILTERED`: entries of the active language only. -/
def DISTRIBUTION_FILTERED (lang : String) : List ((String × String × String) × Nat) :=
  DISTRIBUTION.filter (fun e => e.1.1 = lang)

/-- `CASE_RANGES[lang]` (0-indexed half-open ranges). -/
def CASE_RANGES (lang : String) : Nat × Nat :=
  if lang = "hindi" then (0, 400)
  else if lang = "english" then (400, 800)
  else if lang = "code_mixed" then (800, 1200)
  else (0, 0)

def VALID_LANGUAGES : List String := ["hindi", "english", "code_mixed"]

/-! ### Dialogue identifiers -/
def cUnderscore : Char := Char.ofNat 95

def natDigitsAux : Nat → Nat → List Char
  | 0, _ => []
  | fuel + 1, n =>
    if n < 10 then [Char.ofNat (48 + n)]
    else natDigitsAux fuel (n / 10) ++ [Char.ofNat (48 + n % 10)]

/-- Decimal digits of `n`, most significant first. -/
def natDigits (n : Nat) : List Char := natDigitsAux (n + 1) n

/-- Python `f"{n:0wd}"` for `n ≥ 0`: zero-pad to width `w` (longer numerals
print in full). -/
def padZeros (w n : Nat) : List Char :=
  List.replicate (w - (natDigits n).length) (Char.ofNat 48) ++ natDigits n

/-- `{"hindi": "HN", "english": "EN", "code_mixed": "CM"}.get(language, "HN")`. -/
def langPrefixOf (language : String) : String :=
  if language = "hindi" then "HN"
  else if language = "english" then "EN"
  else if language = "code_mixed" then "CM"
  else "HN"

/-- `f"{lang_prefix}_{bucket_key}_C{case_id:04d}_{idx:03d}"`. -/
def dialogueIdChars (language bucket_key : String) (case_id idx : Nat) : List Char :=
  (langPrefixOf language).data ++ cUnderscore :: bucket_key.data ++
    cUnderscore :: Char.ofNat 67 :: padZeros 4 case_id ++ cUnderscore :: padZeros 3 idx

/-! ### `create_fallback_dialogue` -/
def fallbackUserMsg (language : String) : String :=
  if language = "hindi" then "कृपया मुझे इस मामले के बारे में जानकारी दें।"
  else if language = "english" then "Please provide me information about this case."
  else if language = "code_mixed" then "Please mujhe is case ke bare me information dijiye."
  else "कृपया मुझे इस मामले के बारे में जानकारी दें।"

def fallbackAssistantMsg (language : String) : String :=
  if language = "hindi" then "मैं आपकी सहायता करने के लिए यहाँ हूँ। कृपया अपने प्रश्न पूछें।"
  else if language = "english" then "I am here to help you. Please ask your questions."
  else if language = "code_mixed" then "Main aapki help karne ke liye yahan hoon. Apne questions puchiye."
  else "मैं आपकी सहायता करने के लिए यहाँ हूँ। कृपया अपने प्रश्न पूछें।"

def mkTurn (role text : String) : Json :=
  .obj (.cons ("role").data (.str role.data) (.cons ("text").data (.str text.data) .nil))

/-- `[user_turn, assistant_turn] * turns` (list repetition). -/
def repeatedTurns (u a : Json) : Nat → JsonArr
  | 0 => .nil
  | n + 1 => .cons u (.cons a (repeatedTurns u a n))

/-- `create_fallback_dialogue` (fields in the source's literal order). -/
def create_fallback_dialogue (turns : Nat) (complexity bucket_key : String)
    (idx : Nat) (language : String) (case_id : Nat) : Json :=
  .obj (.cons ("dialogue_id").data (.str (dialogueIdChars language bucket_key case_id idx))
    (.cons ("language").data (.str language.data)
    (.cons ("complexity").data (.str complexity.data)
    (.cons ("turn_count").data (.num turns)
    (.cons ("turns").data (.arr (repeatedTurns (mkTurn ("user") (fallbackUserMsg language))
        (mkTurn ("assistant") (fallbackAssistantMsg language)) turns))
    (.cons ("statutes_cited").data (.arr .nil) .nil))))))

/-! ### `generate_dialogue` -/
/-- The outcome of one `generate_dialogue` call: `ok` a returned dict,
`failed` an explicit `return None`, `raised` an uncaught exception inside
the function (the main loop's `try/except` turns both non-`ok` outcomes
into a failed attempt). -/
inductive GenResult where
  | ok (r : Json)
  | failed
  | raised
  deriving DecidableEq

/-- Python truthiness on the modelled JSON values. -/
def pyTruthy : Json → Bool
  | .null => false
  | .bool b => b
  | .num n => n ≠ 0
  | .str s => s ≠ []
  | .arr a => a ≠ .nil
  | .obj o => o ≠ .nil

/-- A structurally valid turn: a dict with `role` and `text` keys whose
`role` is exactly `"user"` or `"assistant"`. -/
def isValidTurn (t : Json) : Bool :=
  match t with
  | .obj fs =>
    fs.hasKey ("role").data && fs.hasKey ("text").data &&
      (match fs.get ("role").data with
       | some (.str r) => r = ("user").data || r = ("assistant").data
       | _ => false)
  | _ => false

def filterTurns : JsonArr → JsonArr
  | .nil => .nil
  | .cons t rest =>
    if isValidTurn t then .cons t (filterTurns rest) else filterTurns rest

def JsonArr.length : JsonArr → Nat
  | .nil => 0
  | .cons _ rest => 1 + rest.length

/-- Steps of the dict branch of `generate_dialogue` before the turns
validation (source lines 772-790): default `turns`/`statutes_cited`, drop
`safety_notes`/`case_summary`, stamp the deterministic `dialogue_id`,
keep-or-default `language`/`complexity`/`turn_count`, set `bucket`. -/
def vpdPrepared (fs : JsonObj) (turnsDraw : Nat) (bucket_key : String)
    (idx : Nat) (complexity language : String) (case_id : Nat) : JsonObj :=
  let d1 := if fs.hasKey ("turns").data then fs else fs.set ("turns").data (.arr .nil)
  let d2 := if d1.hasKey ("statutes_cited").data then d1
    else d1.set ("statutes_cited").data (.arr .nil)
  let d3 := d2.del ("safety_notes").data
  let d4 := d3.del ("case_summary").data
  let d5 := d4.set ("dialogue_id").data
    (.str (dialogueIdChars language bucket_key case_id idx))
  let d6 := d5.set ("language").data
    (match d5.get ("language").data with | some v => v | none => .str language.data)
  let d7 := d6.set ("complexity").data
    (match d6.get ("complexity").data with | some v => v | none => .str complexity.data)
  let d8 := d7.set ("turn_count").data
    (match d7.get ("turn_count").data with | some v => v | none => .num turnsDraw)
  d8.set ("bucket").data (.str bucket_key.data)

/-- The dict branch of `generate_dialogue` (source lines 770-811), applied
to a parsed, truthy dict `fs`. -/
def validateParsedDialogue (fs : JsonObj) (turnsDraw : Nat)
    (bucket_key : String) (idx : Nat) (complexity language : String)
    (case_id : Nat) : GenResult :=
  match (vpdPrepared fs turnsDraw bucket_key idx complexity language
      case_id).get ("turns").data with
  | none => .failed
  | some turnsVal =>
    if ¬ pyTruthy turnsVal then .failed
    else
      match turnsVal with
      | .arr a =>
        if filterTurns a = .nil then .failed
        else .ok (.obj ((vpdPrepared fs turnsDraw bucket_key idx complexity
          language case_id).set ("turns").data (.arr (filterTurns a))))
      | .str _ => .failed
      | .obj _ => .failed
      | _ => .raised

/-- `generate_dialogue` with the two oracles made explicit: `turnsDraw` is
`random.randint(min_t, max_t)` and `output` the Generation Client's result
(`None` = no output; the prompt and case summary only influence the oracle,
so they carry no information here). -/
def generate_dialogue (turnsDraw : Nat) (output : Option String)
    (bucket_key : String) (idx : Nat) (complexity language : String)
    (case_id : Nat) : GenResult :=
  match output with
  | none => .failed
  | some out =>
    match safe_parse_json out with
    | some (.obj (.cons k v fs)) =>
      validateParsedDialogue (.cons k v fs) turnsDraw bucket_key idx complexity
        language case_id
    | _ =>
      .ok (create_fallback_dialogue turnsDraw complexity bucket_key idx language case_id)

/-! ### `generate_via_openrouter` (Generation Client)

The endpoint is an oracle `resp : Nat → ApiResp` giving the outcome of each
numbered request. -/
/-- Outcome of one request, by the source's branches: a transport/other
exception, an envelope without a non-empty `choices`, or the extracted
`content` string (possibly empty). -/
inductive ApiResp where
  | netFail
  | badEnvelope
  | content (s : String)
  deriving DecidableEq

/-- The `for attempt in range(max_retries + 1)` loop; arguments are the
current attempt index and the remaining number of iterations.  Returns the
result together with the number of requests made. -/
def genViaAux (resp : Nat → ApiResp) (max_retries : Nat) :
    Nat → Nat → Option String × Nat
  | attempt, 0 => (none, attempt)
  | attempt, remaining + 1 =>
    match resp attempt with
    | .content s =>
      if s.data ≠ [] then (some s, attempt + 1)
      else if attempt < max_retries then
        genViaAux resp max_retries (attempt + 1) remaining
      else (none, attempt + 1)
    | .badEnvelope =>
      if attempt < max_retries then genViaAux resp max_retries (attempt + 1) remaining
      else (none, attempt + 1)
    | .netFail =>
      if attempt < max_retries then genViaAux resp max_retries (attempt + 1) remaining
      else (none, attempt + 1)

/-- `generate_via_openrouter(prompt, max_retries)`: result and request count. -/
def generate_via_openrouter (resp : Nat → ApiResp) (max_retries : Nat) :
    Option String × Nat :=
  genViaAux resp max_retries 0 (max_retries + 1)

/-- The call with the argument defaulted, as the pipeline invokes it
(`generate_via_openrouter(prompt)`, `max_retries: int = 2`). -/
def generate_via_openrouter_default (resp : Nat → ApiResp) : Option String × Nat :=
  generate_via_openrouter resp 2

/-! ### Event order of the main loop's success branch (source lines 932-1005)

Each iteration of the `while` loop emits its observable actions in program
order; the success branch (lines 980-1002) appends to `dataset`, increments
the cell counter and the running total, then writes the record, a newline,
and flushes. -/
inductive LoopEv where
  | selectCell
  | pickCase
  | attemptGeneration
  | appendDataset
  | incCellCount
  | incTotalGenerated
  | writeRecord
  | writeNewline
  | flushFile
  deriving DecidableEq

/-- The success branch's actions in source order (lines 987, 988, 989, 992,
993, 994). -/
def acceptedBranchEvents : List LoopEv :=
  [.appendDataset, .incCellCount, .incTotalGenerated,
   .writeRecord, .writeNewline, .flushFile]

/-- One loop iteration's actions (cell selection and case pick at the top,
then the attempt loop, then — when a record was accepted — the success
branch). -/
def iterationEvents (accepted : Bool) : List LoopEv :=
  [.selectCell, .pickCase, .attemptGeneration] ++
    (if accepted then acceptedBranchEvents else [])

/-- The whole loop's actions, tagged with iteration numbers from `i` up. -/
def loopEventTraceFrom : Nat → List Bool → List (Nat × LoopEv)
  | _, [] => []
  | i, b :: bs =>
    (iterationEvents b).map (fun e => (i, e)) ++ loopEventTraceFrom (i + 1) bs

def loopEventTrace (outs : List Bool) : List (Nat × LoopEv) :=
  loopEventTraceFrom 0 outs

/-! ### Resume replay (source lines 876-909) -/
/-- `max_case_id_seen` update for one replayed record (`isinstance(cid, int)`
admits Python `bool`s as the integers 1/0). -/
def replayMx (fs : JsonObj) (mx : Int) : Int :=
  match fs.get ("case_id").data with
  | some (.num n) => if n > mx then n else mx
  | some (.bool b) =>
    if (if b then (1 : Int) else 0) > mx then (if b then 1 else 0) else mx
  | _ => mx

/-- One pass over the persisted lines, mirroring the replay `for` loop:
`counts` is `distribution_counts`, `tot` is `existing_total`, `mx` is
`max_case_id_seen`; the final `Bool` is false when the loop was aborted by
an uncaught exception — which happens exactly when a line parses to a
non-dict JSON value, making `obj.get` raise `AttributeError` outside the
inner `try`. -/
def replayAux (lang : String) :
    List String → ((String × String × String) → Nat) → Nat → Int →
    (((String × String × String) → Nat) × Nat × Int × Bool)
  | [], counts, tot, mx => (counts, tot, mx, true)
  | line :: rest, counts, tot, mx =>
    let ls := pyStrip line.data
    if ls = [] then replayAux lang rest counts tot mx
    else
      match jsonLoads ls with
      | none => replayAux lang rest counts (tot + 1) mx
      | some (.obj fs) =>
        let counts' :=
          match fs.get ("complexity").data, fs.get ("bucket").data with
          | some (.str comp), some (.str buck) =>
            if COMPLEXITY_LEVELS.any (fun c => c.data = comp) &&
                (BUCKETS.map Prod.fst).any (fun b => b.data = buck) then
              if (DISTRIBUTION_FILTERED lang).any
                  (fun e => e.1 = (lang, String.mk comp, String.mk buck)) then
                fun c => if c = (lang, String.mk comp, String.mk buck) then
                  counts c + 1 else counts c
              else counts
            else counts
          | _, _ => counts
        replayAux lang rest counts' (tot + 1) (replayMx fs mx)
      | some _ => (counts, tot + 1, mx, false)

/-- The whole resume block: returns `distribution_counts`, the re-derived
case pointer (`case_indices[CURRENT_LANGUAGE]`), and whether the replay
completed (`False` = the `except` branch ran: counts keep their partial
values, the pointer keeps its initial value `case_start`, and the program
falls back to a fresh overwrite). -/
def resumeReplay (lang : String) (lines : List String) :
    (((String × String × String) → Nat) × Nat × Bool) :=
  let case_start := (CASE_RANGES lang).1
  match replayAux lang lines (fun _ => 0) 0 0 with
  | (counts, _, mx, true) =>
    (counts, if mx < (case_start : Int) then case_start else mx.toNat, true)
  | (counts, _, _, false) => (counts, case_start, false)

/-- A persisted line that parses as JSON and matches the quota cell
`(lang, comp, buck)` — the property C5 counts. -/
def lineMatchesCell (comp buck : String) (line : String) : Bool :=
  match jsonLoads (pyStrip line.data) with
  | some (.obj fs) =>
    fs.get ("complexity").data = some (.str comp.data) &&
      fs.get ("bucket").data = some (.str buck.data)
  | _ => false

/-! ### The main generation loop (source lines 925-1005)

State: `counts` is `distribution_counts`, `total` is `total_generated`,
`pointer` is `case_indices[CURRENT_LANGUAGE]`, `file` is the sequence of
records appended to the output file.  Per-iteration oracle inputs: the
three attempts' `random.randint` draw and Generation Client outcome, and
the `random.randint(case_start, case_end - 1)` draw used once the case
range is exhausted. -/
structure GenState where
  counts : (String × String × String) → Nat
  total : Nat
  pointer : Nat
  file : List Json

structure AttemptInput where
  turnsDraw : Nat
  output : Option String

structure IterInput where
  a1 : AttemptInput
  a2 : AttemptInput
  a3 : AttemptInput
  randCase : Nat

/-- `next_combo` selection: the first `DISTRIBUTION_FILTERED` entry whose
count is below its target. -/
def nextCombo (lang : String) (counts : (String × String × String) → Nat) :
    Option ((String × String × String) × Nat) :=
  (DISTRIBUTION_FILTERED lang).find? (fun e => counts e.1 < e.2)

/-- The case index picked by this iteration (1-indexed `case_number` is this
plus one). -/
def pickedCaseIdx (lang : String) (s : GenState) (it : IterInput) : Nat :=
  if s.pointer ≥ (CASE_RANGES lang).2 then it.randCase else s.pointer

/-- Up to three attempts on the same case; the first `ok` result wins; a
`failed` or `raised` outcome (the latter caught by the loop's `except`)
moves to the next attempt. -/
def attemptsResult (lang comp buck : String) (idx caseNumber : Nat)
    (it : IterInput) : Option Json :=
  match generate_dialogue it.a1.turnsDraw it.a1.output buck idx comp lang caseNumber with
  | .ok r => some r
  | _ =>
    match generate_dialogue it.a2.turnsDraw it.a2.output buck idx comp lang caseNumber with
    | .ok r => some r
    | _ =>
      match generate_dialogue it.a3.turnsDraw it.a3.output buck idx comp lang caseNumber with
      | .ok r => some r
      | _ => none

/-- The success branch's field overwrites (source lines 982-985). -/
def finalizeRecord (r : Json) (lang comp buck : String) (caseNumber : Nat) : Json :=
  match r with
  | .obj fs =>
    .obj ((((fs.set ("language").data (.str lang.data)).set
      ("complexity").data (.str comp.data)).set
      ("bucket").data (.str buck.data)).set
      ("case_id").data (.num caseNumber))
  | v => v

/-- One iteration of the `while` loop body (after the `next_combo = None`
break has been ruled out). -/
def iterate (lang : String) (s : GenState) (it : IterInput) : GenState :=
  match nextCombo lang s.counts with
  | none => s
  | some ((l, comp, buck), _) =>
    let case_end := (CASE_RANGES lang).2
    let case_idx := pickedCaseIdx lang s it
    let pointer' := if s.pointer ≥ case_end then s.pointer else s.pointer + 1
    let caseNumber := case_idx + 1
    match attemptsResult lang comp buck (s.total + 1) caseNumber it with
    | none => { s with pointer := pointer' }
    | some r =>
      let fin := finalizeRecord r lang comp buck caseNumber
      { counts := fun c => if c = (l, comp, buck) then s.counts c + 1 else s.counts c,
        total := s.total + 1,
        pointer := pointer',
        file := s.file ++ [fin] }

/-- `while total_generated < TARGET_SAMPLES: ...` with its two exits. -/
def runLoop (lang : String) (s : GenState) : List IterInput → GenState
  | [] => s
  | it :: its =>
    if s.total < TARGET_SAMPLES then
      match nextCombo lang s.counts with
      | none => s
      | some _ => runLoop lang (iterate lang s it) its
    else s

/-- The loop has exited: either the running total reached the target or no
cell is below its target. -/
def loopHalted (lang : String) (s : GenState) : Prop :=
  TARGET_SAMPLES ≤ s.total ∨ nextCombo lang s.counts = none

/-- The fresh initial state (no resume): zero counts, empty file, pointer
at the start of the language's case range. -/
def freshState (lang : String) : GenState :=
  { counts := fun _ => 0, total := 0, pointer := (CASE_RANGES lang).1, file := [] }

/-- Field access on a record (`rec["k"]` for a dict, exceptions elided). -/
def getField (r : Json) (k : String) : Option Json :=
  match r with
  | .obj fs => fs.get k.data
  | _ => none

/-! ## Theorems for the claims -/
/-- A state in which every hindi quota cell holds exactly its target and
`total_generated` is the sum of the counts (as the program computes it). -/
def hindiFullState : GenState :=
  { counts := fun c =>
      match (DISTRIBUTION_FILTERED ("hindi")).find? (fun e => e.1 = c) with
      | some e => e.2
      | none => 0,
    total := 399, pointer := 0, file := [] }

/-- The `turns` value the validation step consults: the parsed object's
`turns` field, defaulted to the empty list. -/
def turnsValueOf (fs : JsonObj) : Json :=
  (fs.get ("turns").data).getD (.arr .nil)

/-- `data and isinstance(data, dict)`: the parse produced a truthy dict. -/
def parsedTruthyDict : Option Json → Bool
  | some (.obj (.cons _ _ _)) => true
  | _ => false

/-- After defaulting, the record's `turns` contain no structurally valid
turn entry (for a non-list `turns` value no entry is a valid turn). -/
def zeroValidTurns (fs : JsonObj) : Bool :=
  match turnsValueOf fs with
  | .arr a => match filterTurns a with | .nil => true | _ => false
  | _ => true

/-- A parsed-but-invalid model output: a truthy dict whose only turn has a
role other than `user`/`assistant`. -/
def c3out : String :=
  "\x7b\x22turns\x22: [\x7b\x22role\x22: \x22narrator\x22, \x22text\x22: \x22hi\x22\x7d]\x7d"

def c3fs : JsonObj :=
  .cons ("turns").data
    (.arr (.cons (.obj (.cons ("role").data (.str ("narrator").data)
      (.cons ("text").data (.str ("hi").data) .nil))) .nil)) .nil

/-- The record with a self-reported `turn_count` of 999 and one valid turn. -/
def c10fs : JsonObj :=
  .cons ("turn_count").data (.num 999)
    (.cons ("turns").data
      (.arr (.cons (.obj (.cons ("role").data (.str ("user").data)
        (.cons ("text").data (.str ("hello").data) .nil))) .nil)) .nil)

def c10r : Json :=
  match validateParsedDialogue c10fs 3 ("A") 1 ("layman") ("english") 5 with
  | .ok r => r
  | _ => .null

/-- A persisted line that parses as JSON but not to a mapping (such lines
make `obj.get` raise `AttributeError`, aborting the replay). -/
def lineParsesNonObj (line : String) : Bool :=
  match jsonLoads (pyStrip line.data) with
  | some (.obj _) => false
  | some _ => true
  | none => false

def c5lines : List String :=
  ["7",
   "\x7b\x22complexity\x22: \x22layman\x22, \x22bucket\x22: \x22A\x22, \x22case_id\x22: 3\x7d"]

def c5wlines : List String :=
  ["\x7b\x22complexity\x22: \x22layman\x22, \x22bucket\x22: \x22A\x22, \x22case_id\x22: 3\x7d",
   ""]

/-- The file invariant: the record at 0-based position `k` carries a
dialogue identifier whose last three characters are the zero-padded
1-based position `k + 1` (the running total at the time it was written). -/
def fileIdInv (file : List Json) : Prop :=
  ∀ (k : Nat) (hk : k < file.length), ∃ A,
    getField (file.get ⟨k, hk⟩) ("dialogue_id") =
      some (.str (A ++ padZeros 3 (k + 1)))

/-- An iteration whose first attempt yields unparsable output (fallback
record accepted). -/
def itG : IterInput :=
  { a1 := ⟨2, some ("x")⟩, a2 := ⟨2, none⟩, a3 := ⟨2, none⟩, randCase := 400 }

/-! ### Canonical serialization (for the amended C8)

`serialize` renders a JSON value compactly (no added whitespace, strings
emitted verbatim).  The amended claim quantifies over objects whose strings
are `plain`: printable, and free of the characters that the tolerant
parser's regex strategies or `clean_json_text` treat specially (quotes,
backslash, backtick, apostrophe, slash, braces, closing bracket). -/
def serializeInt (n : Int) : List Char :=
  if n < 0 then cMinus :: natDigits (-n).toNat else natDigits n.toNat

mutual

def serialize : Json → List Char
  | .null => ("null").data
  | .bool true => ("true").data
  | .bool false => ("false").data
  | .num n => serializeInt n
  | .str s => [cQuote] ++ s ++ [cQuote]
  | .arr a => [cLBrack] ++ serializeArr a ++ [cRBrack]
  | .obj o => [cLBrace] ++ serializeObj o ++ [cRBrace]

def serializeArr : JsonArr → List Char
  | .nil => []
  | .cons v .nil => serialize v
  | .cons v (.cons w rest) =>
    serialize v ++ [cComma] ++ serializeArr (.cons w rest)

def serializeObj : JsonObj → List Char
  | .nil => []
  | .cons k v .nil => [cQuote] ++ k ++ [cQuote, cColon] ++ serialize v
  | .cons k v (.cons k2 v2 rest) =>
    [cQuote] ++ k ++ [cQuote, cColon] ++ serialize v ++ [cComma] ++
      serializeObj (.cons k2 v2 rest)

end

/-- Characters allowed in plain strings and keys. -/
def plainChar (c : Char) : Bool :=
  32 ≤ c.toNat && !(isWs c) && ¬ c = cQuote && ¬ c = cBackslash &&
    ¬ c = cBacktick && ¬ c = cApos && ¬ c = cSlash && ¬ c = cLBrace &&
    ¬ c = cRBrace && ¬ c = cRBrack && ¬ c = cComma

mutual

def plainJson : Json → Bool
  | .null => true
  | .bool _ => true
  | .num _ => true
  | .str s => s.all plainChar
  | .arr a => plainArr a
  | .obj o => plainObj o

def plainArr : JsonArr → Bool
  | .nil => true
  | .cons v rest => plainJson v && plainArr rest

/-- Plain object: plain keys and values, and no duplicate keys (the parser
collapses duplicates). -/
def plainObj : JsonObj → Bool
  | .nil => true
  | .cons k v rest =>
    k.all plainChar && plainJson v && !(rest.hasKey k) && plainObj rest

end

/-! Fuel needed by `parseVal` on the serialization of a value: one unit per
nesting step (sibling calls share the fuel argument, hence `max`). -/
mutual

def jsize : Json → Nat
  | .arr a => asize a + 1
  | .obj o => osize o + 1
  | _ => 1

def asize : JsonArr → Nat
  | .nil => 0
  | .cons v r => max (jsize v) (asize r) + 1

def osize : JsonObj → Nat
  | .nil => 0
  | .cons _ v r => max (jsize v) (osize r) + 1

end

/-- The character-level facts every serializer output character enjoys:
printable, not whitespace, and none of backtick, apostrophe, slash. -/
def charOutOk (c : Char) : Bool :=
  32 ≤ c.toNat && !(isWs c) && ¬ c = cBacktick && ¬ c = cApos && ¬ c = cSlash

/-! ### Amended C8: supporting development

The amended claim quantifies over `plain` objects.  The two input texts are
the bare serialization and the fenced serialization with a trailing comma
inserted before the final closing brace. -/
def bareOf (o : JsonObj) : String := String.mk (serialize (.obj o))

def fencedCommaOf (o : JsonObj) : String :=
  String.mk (("```json" ++ "\n").data ++
    (cLBrace :: (serializeObj o ++ [cComma, cRBrace])) ++ ("\n" ++ "```").data)

/-- A character allowed right after a comma by the trailing-comma regex:
not whitespace and not a closer. -/
def goodNext (c : Char) : Bool :=
  !(isWs c) && ¬ c = cRBrace && ¬ c = cRBrack

/-- No comma is followed by whitespace or a closer, and the text does not
end in a comma. -/
def commaSafeS : List Char → Bool
  | [] => true
  | [c] => ¬ c = cComma
  | c :: d :: rest => (if c = cComma then goodNext d else true) && commaSafeS (d :: rest)

/-- A suffix the number parser may stop at: empty or not digit-headed. -/
def restOk : List Char → Bool
  | [] => true
  | c :: _ => !(isDigit c)

/-- Everything needed of the characters `natDigitsAux` emits. -/
def digitOut (c : Char) : Bool :=
  isDigit c && goodNext c && ¬ c = cComma && ¬ c = cMinus && ¬ c = cLBrace &&
    ¬ c = cLBrack && ¬ c = cQuote && ¬ c = Char.ofNat 116 &&
    ¬ c = Char.ofNat 102 && ¬ c = Char.ofNat 110

theorem JsonObj.get_set_self (k : List Char) (v : Json) :
    ∀ o : JsonObj, (o.set k v).get k = some v
  | .nil => by simp [JsonObj.set, JsonObj.get]
  | .cons k' v' rest => by
    by_cases h : k' = k <;>
      simp [JsonObj.set, JsonObj.get, h, JsonObj.get_set_self k v rest]

theorem JsonObj.get_set_ne (k k' : List Char) (v : Json) (h : k' ≠ k) :
    ∀ o : JsonObj, (o.set k' v).get k = o.get k
  | .nil => by simp [JsonObj.set, JsonObj.get, h]
  | .cons k'' v' rest => by
    by_cases h2 : k'' = k'
    · subst h2
      simp [JsonObj.set, JsonObj.get, h]
    · by_cases h3 : k'' = k
      · subst h3
        simp [JsonObj.set, JsonObj.get, h2]
      · simp [JsonObj.set, JsonObj.get, h2, h3, JsonObj.get_set_ne k k' v h rest]

/-- C1: the claim is right about the loop's design, but the configured hindi
quota table contradicts the code's own `# Hindi: 400 dialogs` comment and
`SAMPLES_PER_LANGUAGE = 400`: its targets sum to 399, so a completed hindi
run halts (no cell below target) with the cell sum and running total at
399, not the configured total target 400.  The english and code-mixed
tables do sum to 400. -/
theorem C1_hindi_quota_sum_mismatch :
    ((DISTRIBUTION_FILTERED ("hindi")).map Prod.snd).sum = 399 ∧
    TARGET_SAMPLES = 400 ∧
    (∀ e ∈ DISTRIBUTION_FILTERED ("hindi"), hindiFullState.counts e.1 = e.2) ∧
    loopHalted ("hindi") hindiFullState ∧
    hindiFullState.total = 399 ∧ hindiFullState.total ≠ TARGET_SAMPLES ∧
    ((DISTRIBUTION_FILTERED ("english")).map Prod.snd).sum = 400 ∧
    ((DISTRIBUTION_FILTERED ("code_mixed")).map Prod.snd).sum = 400 := by
  refine ⟨by decide, by decide, by decide, Or.inr (by decide), by decide, by decide,
    by decide, by decide⟩

/-- C4: `safe_parse_json` is a total function to `Option`: for every input
string it returns either a parsed value or the explicit no-result `none` —
exceptions cannot escape (every fallible parse in the source is wrapped in
`try/except`, so the embedding is a total function); sample evaluations
cover the empty string, non-JSON prose, and truncated JSON. -/
theorem C4_safe_parse_json_total :
    (∀ s : String, safe_parse_json s = none ∨ ∃ v, safe_parse_json s = some v) ∧
    safe_parse_json ("") = none ∧
    safe_parse_json ("The model refused to answer in JSON form.") = none ∧
    safe_parse_json ("\x7b\x22a\x22: [1, 2") = none := by
  refine ⟨fun s => ?_, by decide, by decide, by decide⟩
  cases h : safe_parse_json s with
  | none => exact Or.inl rfl
  | some v => exact Or.inr ⟨v, rfl⟩

/-- C6 counterexample: in the success branch's program order (source lines
987-994) the per-cell count and total are incremented (positions 1, 2)
before the record is written and flushed (positions 3, 5) — not after, as
the claim states. -/
theorem C6_counterexample :
    acceptedBranchEvents =
      [.appendDataset, .incCellCount, .incTotalGenerated,
       .writeRecord, .writeNewline, .flushFile] ∧
    acceptedBranchEvents.indexOf LoopEv.incCellCount = 1 ∧
    acceptedBranchEvents.indexOf LoopEv.incTotalGenerated = 2 ∧
    acceptedBranchEvents.indexOf LoopEv.writeRecord = 3 ∧
    acceptedBranchEvents.indexOf LoopEv.flushFile = 5 ∧
    ¬ (acceptedBranchEvents.indexOf LoopEv.writeRecord <
        acceptedBranchEvents.indexOf LoopEv.incCellCount) ∧
    ¬ (acceptedBranchEvents.indexOf LoopEv.flushFile <
        acceptedBranchEvents.indexOf LoopEv.incCellCount) := by
  decide

theorem loopEventTraceFrom_tag_ge :
    ∀ (bs : List Bool) (i : Nat) (p : Nat × LoopEv),
      p ∈ loopEventTraceFrom i bs → i ≤ p.1
  | [], _, _ => by simp [loopEventTraceFrom]
  | b :: bs, i, p => by
    intro hp
    simp only [loopEventTraceFrom, List.mem_append, List.mem_map] at hp
    rcases hp with ⟨e, _, rfl⟩ | hp
    · exact Nat.le_refl i
    · exact Nat.le_of_succ_le (loopEventTraceFrom_tag_ge bs (i + 1) p hp)

theorem loopEventTraceFrom_pairwise :
    ∀ (bs : List Bool) (i : Nat),
      (loopEventTraceFrom i bs).Pairwise (fun a b => a.1 ≤ b.1)
  | [], _ => by simp [loopEventTraceFrom]
  | b :: bs, i => by
    simp only [loopEventTraceFrom]
    rw [List.pairwise_append]
    refine ⟨?_, loopEventTraceFrom_pairwise bs (i + 1), ?_⟩
    · refine List.Pairwise.map _ (fun a b h => h) ?_
      exact List.pairwise_iff_forall_sublist.mpr (fun _ => Nat.le_refl i)
    · intro a ha b hb
      simp only [List.mem_map] at ha
      rcases ha with ⟨e, _, rfl⟩
      exact Nat.le_of_succ_le (loopEventTraceFrom_tag_ge bs (i + 1) b hb)

/-- C6 amended: within each accepted iteration the in-memory counters are
incremented first and the record is then written and flushed (all inside
the same iteration), and every event of an iteration — in particular its
write and flush — occurs before every event of any later iteration, so the
write and flush complete before the next quota cell is considered. -/
theorem C6_write_flush_order (outs : List Bool) :
    (loopEventTrace outs).Pairwise (fun a b => a.1 ≤ b.1) ∧
    acceptedBranchEvents.indexOf LoopEv.incCellCount <
      acceptedBranchEvents.indexOf LoopEv.writeRecord ∧
    acceptedBranchEvents.indexOf LoopEv.writeRecord <
      acceptedBranchEvents.indexOf LoopEv.flushFile := by
  exact ⟨loopEventTraceFrom_pairwise outs 0, by decide, by decide⟩

/-- C9 counterexample: called without an explicit retry budget
(`max_retries` defaulted to 2) against an endpoint that always fails, the
client makes three requests — not at most two as claimed — before
returning the no-result signal. -/
theorem C9_counterexample :
    generate_via_openrouter_default (fun _ => ApiResp.netFail) = (none, 3) ∧
    ¬ ((3 : Nat) ≤ 2) := by
  constructor
  · rfl
  · decide

theorem genViaAux_spec (resp : Nat → ApiResp) (mr : Nat) :
    ∀ (remaining attempt : Nat), attempt + remaining = mr + 1 →
      (genViaAux resp mr attempt remaining).2 ≤ mr + 1 ∧
      ((genViaAux resp mr attempt remaining).1 = none →
        (genViaAux resp mr attempt remaining).2 = mr + 1)
  | 0, attempt => by
    intro h
    simp only [genViaAux]
    exact ⟨by omega, fun _ => by omega⟩
  | remaining + 1, attempt => by
    intro h
    have hle : attempt ≤ mr := by omega
    simp only [genViaAux]
    cases hr : resp attempt with
    | content s =>
      by_cases hs : s.data = []
      · simp only [hs, ne_eq, not_true_eq_false, if_false]
        by_cases hlt : attempt < mr
        · simp only [hlt, if_true]
          exact genViaAux_spec resp mr remaining (attempt + 1) (by omega)
        · simp only [hlt, if_false]
          exact ⟨by omega, fun _ => by omega⟩
      · simp only [ne_eq, hs, not_false_eq_true, if_true]
        exact ⟨by omega, fun hcontra => by simp at hcontra⟩
    | badEnvelope =>
      by_cases hlt : attempt < mr
      · simp only [hlt, if_true]
        exact genViaAux_spec resp mr remaining (attempt + 1) (by omega)
      · simp only [hlt, if_false]
        exact ⟨by omega, fun _ => by omega⟩
    | netFail =>
      by_cases hlt : attempt < mr
      · simp only [hlt, if_true]
        exact genViaAux_spec resp mr remaining (attempt + 1) (by omega)
      · simp only [hlt, if_false]
        exact ⟨by omega, fun _ => by omega⟩

/-- C9 amended: the defaulted budget is two retries, i.e. at most three
requests in total, and exactly three whenever the client ends up returning
the no-result signal. -/
theorem C9_default_three_attempts (resp : Nat → ApiResp) :
    (generate_via_openrouter_default resp).2 ≤ 3 ∧
    ((generate_via_openrouter_default resp).1 = none →
      (generate_via_openrouter_default resp).2 = 3) := by
  have h := genViaAux_spec resp 2 3 0 (by omega)
  simpa [generate_via_openrouter_default, generate_via_openrouter] using h

/-- C9 witness: at the always-misshapen-envelope endpoint the defaulted
client returns no result after exactly three requests. -/
theorem C9_witness :
    (generate_via_openrouter_default (fun _ => ApiResp.badEnvelope)).2 = 3 :=
  (C9_default_three_attempts (fun _ => ApiResp.badEnvelope)).2 (by decide)

theorem JsonObj.get_del_ne (k k' : List Char) (h : k' ≠ k) :
    ∀ o : JsonObj, (o.del k').get k = o.get k
  | .nil => by simp [JsonObj.del, JsonObj.get]
  | .cons k'' v rest => by
    by_cases h2 : k'' = k'
    · subst h2
      have h3 : ¬ k'' = k := h
      simp [JsonObj.del, JsonObj.get, h3, JsonObj.get_del_ne k k'' h rest]
    · by_cases h3 : k'' = k
      · subst h3
        simp [JsonObj.del, JsonObj.get, h2]
      · simp [JsonObj.del, JsonObj.get, h2, h3, JsonObj.get_del_ne k k' h rest]

theorem defaultKey_get_self (fs : JsonObj) (k : List Char) (d : Json) :
    (if fs.hasKey k then fs else fs.set k d).get k = some ((fs.get k).getD d) := by
  by_cases h : fs.hasKey k
  · rw [if_pos h]
    unfold JsonObj.hasKey at h
    cases hg : fs.get k with
    | none => rw [hg] at h; simp at h
    | some v => simp
  · rw [if_neg h, JsonObj.get_set_self]
    unfold JsonObj.hasKey at h
    cases hg : fs.get k with
    | some v => rw [hg] at h; simp at h
    | none => simp

theorem defaultKey_get_ne (fs : JsonObj) (k k' : List Char) (d : Json)
    (h : k' ≠ k) :
    (if fs.hasKey k' then fs else fs.set k' d).get k = fs.get k := by
  by_cases h2 : fs.hasKey k'
  · rw [if_pos h2]
  · rw [if_neg h2, JsonObj.get_set_ne _ _ _ h]

theorem vpdPrepared_get_turns (fs : JsonObj) (turnsDraw : Nat)
    (bucket_key : String) (idx : Nat) (complexity language : String)
    (case_id : Nat) :
    (vpdPrepared fs turnsDraw bucket_key idx complexity language case_id).get
      ("turns").data = some (turnsValueOf fs) := by
  unfold vpdPrepared
  rw [JsonObj.get_set_ne _ _ _ (show ("bucket").data ≠ ("turns").data by decide),
    JsonObj.get_set_ne _ _ _ (show ("turn_count").data ≠ ("turns").data by decide),
    JsonObj.get_set_ne _ _ _ (show ("complexity").data ≠ ("turns").data by decide),
    JsonObj.get_set_ne _ _ _ (show ("language").data ≠ ("turns").data by decide),
    JsonObj.get_set_ne _ _ _ (show ("dialogue_id").data ≠ ("turns").data by decide),
    JsonObj.get_del_ne _ _ (show ("case_summary").data ≠ ("turns").data by decide),
    JsonObj.get_del_ne _ _ (show ("safety_notes").data ≠ ("turns").data by decide),
    defaultKey_get_ne _ _ _ _ (show ("statutes_cited").data ≠ ("turns").data by decide),
    defaultKey_get_self]
  rfl

theorem vpdPrepared_get_turn_count (fs : JsonObj) (turnsDraw : Nat)
    (bucket_key : String) (idx : Nat) (complexity language : String)
    (case_id : Nat) :
    (vpdPrepared fs turnsDraw bucket_key idx complexity language case_id).get
      ("turn_count").data =
      some ((fs.get ("turn_count").data).getD (.num turnsDraw)) := by
  unfold vpdPrepared
  rw [JsonObj.get_set_ne _ _ _ (show ("bucket").data ≠ ("turn_count").data by decide),
    JsonObj.get_set_self,
    JsonObj.get_set_ne _ _ _ (show ("complexity").data ≠ ("turn_count").data by decide),
    JsonObj.get_set_ne _ _ _ (show ("language").data ≠ ("turn_count").data by decide),
    JsonObj.get_set_ne _ _ _ (show ("dialogue_id").data ≠ ("turn_count").data by decide),
    JsonObj.get_del_ne _ _ (show ("case_summary").data ≠ ("turn_count").data by decide),
    JsonObj.get_del_ne _ _ (show ("safety_notes").data ≠ ("turn_count").data by decide),
    defaultKey_get_ne _ _ _ _ (show ("statutes_cited").data ≠ ("turn_count").data by decide),
    defaultKey_get_ne _ _ _ _ (show ("turns").data ≠ ("turn_count").data by decide)]
  cases fs.get ("turn_count").data <;> rfl

theorem vpdPrepared_get_dialogue_id (fs : JsonObj) (turnsDraw : Nat)
    (bucket_key : String) (idx : Nat) (complexity language : String)
    (case_id : Nat) :
    (vpdPrepared fs turnsDraw bucket_key idx complexity language case_id).get
      ("dialogue_id").data =
      some (.str (dialogueIdChars language bucket_key case_id idx)) := by
  have hb : ("bucket").data ≠ ("dialogue_id").data := by decide
  have htc : ("turn_count").data ≠ ("dialogue_id").data := by decide
  have hco : ("complexity").data ≠ ("dialogue_id").data := by decide
  have hla : ("language").data ≠ ("dialogue_id").data := by decide
  unfold vpdPrepared
  rw [JsonObj.get_set_ne _ _ _ hb, JsonObj.get_set_ne _ _ _ htc,
    JsonObj.get_set_ne _ _ _ hco, JsonObj.get_set_ne _ _ _ hla,
    JsonObj.get_set_self]

/-- C3 counterexample: this output parses to a (truthy) structured object,
every turn entry is structurally invalid (role `narrator`), and
`generate_dialogue` reports failure for the attempt (`return None`) instead
of substituting the fallback record the claim promises. -/
theorem C3_counterexample :
    safe_parse_json c3out = some (.obj c3fs) ∧
    zeroValidTurns c3fs = true ∧
    generate_dialogue 3 (some c3out) ("A") 1 ("layman") ("english") 5 =
      .failed ∧
    GenResult.failed ≠
      .ok (create_fallback_dialogue 3 ("layman") ("A") 1 ("english") 5) := by
  refine ⟨by decide, by decide, by decide, by decide⟩

theorem validateParsedDialogue_not_ok_of_zeroValid (fs : JsonObj)
    (turnsDraw : Nat) (bucket_key : String) (idx : Nat)
    (complexity language : String) (case_id : Nat)
    (hz : zeroValidTurns fs = true) (r : Json) :
    validateParsedDialogue fs turnsDraw bucket_key idx complexity language
      case_id ≠ .ok r := by
  unfold validateParsedDialogue
  rw [vpdPrepared_get_turns]
  unfold zeroValidTurns at hz
  cases htv : turnsValueOf fs with
  | arr a =>
    rw [htv] at hz
    cases hf : filterTurns a with
    | nil =>
      cases a with
      | nil => simp [pyTruthy]
      | cons t rest => simp [pyTruthy, hf]
    | cons t rest => simp [hf] at hz
  | null => rw [htv] at hz; simp [pyTruthy]
  | bool b => rw [htv] at hz; cases b <;> simp [pyTruthy]
  | num n => rw [htv] at hz; by_cases hn : n = 0 <;> simp [pyTruthy, hn]
  | str s => rw [htv] at hz; cases s with
    | nil => simp [pyTruthy]
    | cons c cs => simp [pyTruthy]
  | obj o => rw [htv] at hz; cases o with
    | nil => simp [pyTruthy]
    | cons k v rest => simp [pyTruthy]

/-- C3 (amended): the fallback record is substituted exactly when the raw
output does not parse to a truthy mapping (no parse, a non-mapping value,
or an empty mapping) — and it then carries the requested exchange count and
language; when the output does parse to a non-empty mapping but zero
structurally valid turns remain, the attempt is reported as a failure
(`None`, or an exception the loop catches), not replaced by a fallback. -/
theorem C3_fallback_vs_failure (turnsDraw : Nat) (out : String)
    (bucket_key : String) (idx : Nat) (complexity language : String)
    (case_id : Nat) :
    (parsedTruthyDict (safe_parse_json out) = false →
      generate_dialogue turnsDraw (some out) bucket_key idx complexity
          language case_id =
        .ok (create_fallback_dialogue turnsDraw complexity bucket_key idx
          language case_id) ∧
      getField (create_fallback_dialogue turnsDraw complexity bucket_key idx
        language case_id) ("turn_count") = some (.num turnsDraw) ∧
      getField (create_fallback_dialogue turnsDraw complexity bucket_key idx
        language case_id) ("language") = some (.str language.data)) ∧
    (∀ fs, safe_parse_json out = some (.obj fs) → fs ≠ .nil →
      zeroValidTurns fs = true →
      ∀ r, generate_dialogue turnsDraw (some out) bucket_key idx complexity
        language case_id ≠ .ok r) := by
  constructor
  · intro hfalse
    refine ⟨?_, rfl, rfl⟩
    cases h : safe_parse_json out with
    | none => simp [generate_dialogue, h]
    | some v =>
      cases v with
      | obj o =>
        cases o with
        | nil => simp [generate_dialogue, h]
        | cons k w rest =>
          rw [h] at hfalse
          simp [parsedTruthyDict] at hfalse
      | null => simp [generate_dialogue, h]
      | bool b => simp [generate_dialogue, h]
      | num n => simp [generate_dialogue, h]
      | str s => simp [generate_dialogue, h]
      | arr a => simp [generate_dialogue, h]
  · intro fs hp hne hz r
    cases fs with
    | nil => exact absurd rfl hne
    | cons k v rest =>
      simp only [generate_dialogue, hp]
      exact validateParsedDialogue_not_ok_of_zeroValid _ _ _ _ _ _ _ hz r

/-- C3 witness: the amended theorem at concrete inputs — an unparsable
output yields the fallback (first part), and the counterexample's parsed
invalid-turns output yields failure (second part). -/
theorem C3_fallback_vs_failure_witness :
    generate_dialogue 2 (some ("not json at all")) ("B") 7 ("layman")
        ("hindi") 9 =
      .ok (create_fallback_dialogue 2 ("layman") ("B") 7 ("hindi") 9) ∧
    generate_dialogue 3 (some c3out) ("A") 1 ("layman") ("english") 5 ≠
      .ok (create_fallback_dialogue 3 ("layman") ("A") 1 ("english") 5) :=
  ⟨((C3_fallback_vs_failure 2 ("not json at all") ("B") 7 ("layman")
      ("hindi") 9).1 (by decide)).1,
   (C3_fallback_vs_failure 3 c3out ("A") 1 ("layman") ("english") 5).2
     c3fs (by decide) (by decide) (by decide) _⟩

theorem validateParsedDialogue_ok_shape (fs : JsonObj) (turnsDraw : Nat)
    (bucket_key : String) (idx : Nat) (complexity language : String)
    (case_id : Nat) (r : Json)
    (h : validateParsedDialogue fs turnsDraw bucket_key idx complexity
      language case_id = .ok r) :
    ∃ a, turnsValueOf fs = .arr a ∧ filterTurns a ≠ .nil ∧
      r = .obj ((vpdPrepared fs turnsDraw bucket_key idx complexity language
        case_id).set ("turns").data (.arr (filterTurns a))) := by
  unfold validateParsedDialogue at h
  rw [vpdPrepared_get_turns] at h
  cases htv : turnsValueOf fs with
  | arr a =>
    rw [htv] at h
    refine ⟨a, rfl, ?_, ?_⟩ <;>
    · cases a with
      | nil => simp [pyTruthy] at h
      | cons t rest =>
        by_cases hf : filterTurns (.cons t rest) = .nil
        · simp [pyTruthy, hf] at h
        · simp [pyTruthy, hf] at h
          simp [hf, ← h]
  | null => rw [htv] at h; simp [pyTruthy] at h
  | bool b => rw [htv] at h; cases b <;> simp [pyTruthy] at h
  | num n => rw [htv] at h; by_cases hn : n = 0 <;> simp [pyTruthy, hn] at h
  | str s => rw [htv] at h; cases s <;> simp [pyTruthy] at h
  | obj o => rw [htv] at h; cases o <;> simp [pyTruthy] at h

theorem finalizeRecord_obj_get_fixed (o : JsonObj) (lang comp buck : String)
    (n : Nat) :
    getField (finalizeRecord (.obj o) lang comp buck n) ("language") =
      some (.str lang.data) ∧
    getField (finalizeRecord (.obj o) lang comp buck n) ("complexity") =
      some (.str comp.data) ∧
    getField (finalizeRecord (.obj o) lang comp buck n) ("bucket") =
      some (.str buck.data) ∧
    getField (finalizeRecord (.obj o) lang comp buck n) ("case_id") =
      some (.num n) := by
  simp only [finalizeRecord, getField]
  refine ⟨?_, ?_, ?_, ?_⟩
  · rw [JsonObj.get_set_ne _ _ _ (show ("case_id").data ≠ ("language").data by decide),
      JsonObj.get_set_ne _ _ _ (show ("bucket").data ≠ ("language").data by decide),
      JsonObj.get_set_ne _ _ _ (show ("complexity").data ≠ ("language").data by decide),
      JsonObj.get_set_self]
  · rw [JsonObj.get_set_ne _ _ _ (show ("case_id").data ≠ ("complexity").data by decide),
      JsonObj.get_set_ne _ _ _ (show ("bucket").data ≠ ("complexity").data by decide),
      JsonObj.get_set_self]
  · rw [JsonObj.get_set_ne _ _ _ (show ("case_id").data ≠ ("bucket").data by decide),
      JsonObj.get_set_self]
  · rw [JsonObj.get_set_self]

theorem finalizeRecord_obj_get_other (o : JsonObj) (lang comp buck : String)
    (n : Nat) (k : List Char)
    (h1 : ("language").data ≠ k) (h2 : ("complexity").data ≠ k)
    (h3 : ("bucket").data ≠ k) (h4 : ("case_id").data ≠ k) :
    (match finalizeRecord (.obj o) lang comp buck n with
      | .obj fs => fs.get k
      | _ => none) = o.get k := by
  simp only [finalizeRecord]
  rw [JsonObj.get_set_ne _ _ _ h4, JsonObj.get_set_ne _ _ _ h3,
    JsonObj.get_set_ne _ _ _ h2, JsonObj.get_set_ne _ _ _ h1]

/-- C10: for a successfully validated record, `turn_count` is the model's
self-reported value when present and the drawn exchange count only when
absent; the success-branch finalization never overwrites `turn_count`. -/
theorem C10_turn_count_self_reported (fs : JsonObj) (turnsDraw : Nat)
    (bucket_key : String) (idx : Nat) (complexity language : String)
    (case_id : Nat) (r : Json)
    (h : validateParsedDialogue fs turnsDraw bucket_key idx complexity
      language case_id = .ok r) :
    (∀ tc, fs.get ("turn_count").data = some tc →
      getField r ("turn_count") = some tc) ∧
    (fs.get ("turn_count").data = none →
      getField r ("turn_count") = some (.num turnsDraw)) ∧
    (∀ (l2 c2 b2 : String) (n2 : Nat),
      getField (finalizeRecord r l2 c2 b2 n2) ("turn_count") =
        getField r ("turn_count")) := by
  obtain ⟨a, _, _, hr⟩ := validateParsedDialogue_ok_shape _ _ _ _ _ _ _ _ h
  have hget : getField r ("turn_count") =
      some ((fs.get ("turn_count").data).getD (.num turnsDraw)) := by
    rw [hr]
    show ((vpdPrepared fs turnsDraw bucket_key idx complexity language
      case_id).set ("turns").data (.arr (filterTurns a))).get ("turn_count").data = _
    rw [JsonObj.get_set_ne _ _ _ (show ("turns").data ≠ ("turn_count").data by decide),
      vpdPrepared_get_turn_count]
  refine ⟨?_, ?_, ?_⟩
  · intro tc htc
    rw [hget, htc]
    rfl
  · intro htc
    rw [hget, htc]
    rfl
  · intro l2 c2 b2 n2
    rw [hr]
    have := finalizeRecord_obj_get_other
      ((vpdPrepared fs turnsDraw bucket_key idx complexity language
        case_id).set ("turns").data (.arr (filterTurns a))) l2 c2 b2 n2
      ("turn_count").data (by decide) (by decide) (by decide) (by decide)
    exact this

/-- C10 witness: the validated record keeps the self-reported 999 (not the
drawn count 3, nor the single validated turn), and finalization leaves it
in place. -/
theorem C10_witness :
    getField c10r ("turn_count") = some (.num 999) ∧
    getField (finalizeRecord c10r ("english") ("layman") ("A") 5)
      ("turn_count") = some (.num 999) ∧
    (999 : Int) ≠ 3 := by
  have h := C10_turn_count_self_reported c10fs 3 ("A") 1 ("layman")
    ("english") 5 c10r (by decide)
  refine ⟨h.1 (.num 999) (by decide), ?_, by decide⟩
  rw [h.2.2 ("english") ("layman") ("A") 5]
  exact h.1 (.num 999) (by decide)

theorem nextCombo_first_component (lang : String)
    (counts : (String × String × String) → Nat)
    (e : (String × String × String) × Nat)
    (h : nextCombo lang counts = some e) : e.1.1 = lang := by
  unfold nextCombo at h
  have hmem := List.mem_of_find?_eq_some h
  unfold DISTRIBUTION_FILTERED at hmem
  rw [List.mem_filter] at hmem
  exact of_decide_eq_true hmem.2

theorem generate_dialogue_ok_obj (turnsDraw : Nat) (output : Option String)
    (bucket_key : String) (idx : Nat) (complexity language : String)
    (case_id : Nat) (r : Json)
    (h : generate_dialogue turnsDraw output bucket_key idx complexity
      language case_id = .ok r) : ∃ o, r = .obj o := by
  cases output with
  | none => simp [generate_dialogue] at h
  | some out =>
    simp only [generate_dialogue] at h
    cases hp : safe_parse_json out with
    | none =>
      rw [hp] at h
      have h2 : GenResult.ok (create_fallback_dialogue turnsDraw complexity
        bucket_key idx language case_id) = .ok r := h
      injection h2 with h3
      exact ⟨_, h3.symm⟩
    | some v =>
      rw [hp] at h
      cases v with
      | obj o =>
        cases o with
        | nil =>
          have h2 : GenResult.ok (create_fallback_dialogue turnsDraw complexity
            bucket_key idx language case_id) = .ok r := h
          injection h2 with h3
          exact ⟨_, h3.symm⟩
        | cons k w rest =>
          obtain ⟨a, _, _, hr⟩ :=
            validateParsedDialogue_ok_shape _ _ _ _ _ _ _ _ h
          exact ⟨_, hr⟩
      | null =>
        have h2 : GenResult.ok (create_fallback_dialogue turnsDraw complexity
          bucket_key idx language case_id) = .ok r := h
        injection h2 with h3
        exact ⟨_, h3.symm⟩
      | bool b =>
        have h2 : GenResult.ok (create_fallback_dialogue turnsDraw complexity
          bucket_key idx language case_id) = .ok r := h
        injection h2 with h3
        exact ⟨_, h3.symm⟩
      | num n =>
        have h2 : GenResult.ok (create_fallback_dialogue turnsDraw complexity
          bucket_key idx language case_id) = .ok r := h
        injection h2 with h3
        exact ⟨_, h3.symm⟩
      | str s =>
        have h2 : GenResult.ok (create_fallback_dialogue turnsDraw complexity
          bucket_key idx language case_id) = .ok r := h
        injection h2 with h3
        exact ⟨_, h3.symm⟩
      | arr a =>
        have h2 : GenResult.ok (create_fallback_dialogue turnsDraw complexity
          bucket_key idx language case_id) = .ok r := h
        injection h2 with h3
        exact ⟨_, h3.symm⟩

theorem attemptsResult_obj (lang comp buck : String) (idx caseNumber : Nat)
    (it : IterInput) (r : Json)
    (h : attemptsResult lang comp buck idx caseNumber it = some r) :
    ∃ o, r = .obj o := by
  unfold attemptsResult at h
  cases h1 : generate_dialogue it.a1.turnsDraw it.a1.output buck idx comp lang
      caseNumber with
  | ok r1 =>
    rw [h1] at h
    cases h
    exact generate_dialogue_ok_obj _ _ _ _ _ _ _ _ h1
  | failed =>
    rw [h1] at h
    cases h2 : generate_dialogue it.a2.turnsDraw it.a2.output buck idx comp
        lang caseNumber with
    | ok r2 =>
      rw [h2] at h
      cases h
      exact generate_dialogue_ok_obj _ _ _ _ _ _ _ _ h2
    | failed =>
      rw [h2] at h
      cases h3 : generate_dialogue it.a3.turnsDraw it.a3.output buck idx comp
          lang caseNumber with
      | ok r3 =>
        rw [h3] at h
        cases h
        exact generate_dialogue_ok_obj _ _ _ _ _ _ _ _ h3
      | failed => rw [h3] at h; cases h
      | raised => rw [h3] at h; cases h
    | raised =>
      rw [h2] at h
      cases h3 : generate_dialogue it.a3.turnsDraw it.a3.output buck idx comp
          lang caseNumber with
      | ok r3 =>
        rw [h3] at h
        cases h
        exact generate_dialogue_ok_obj _ _ _ _ _ _ _ _ h3
      | failed => rw [h3] at h; cases h
      | raised => rw [h3] at h; cases h
  | raised =>
    rw [h1] at h
    cases h2 : generate_dialogue it.a2.turnsDraw it.a2.output buck idx comp
        lang caseNumber with
    | ok r2 =>
      rw [h2] at h
      cases h
      exact generate_dialogue_ok_obj _ _ _ _ _ _ _ _ h2
    | failed =>
      rw [h2] at h
      cases h3 : generate_dialogue it.a3.turnsDraw it.a3.output buck idx comp
          lang caseNumber with
      | ok r3 =>
        rw [h3] at h
        cases h
        exact generate_dialogue_ok_obj _ _ _ _ _ _ _ _ h3
      | failed => rw [h3] at h; cases h
      | raised => rw [h3] at h; cases h
    | raised =>
      rw [h2] at h
      cases h3 : generate_dialogue it.a3.turnsDraw it.a3.output buck idx comp
          lang caseNumber with
      | ok r3 =>
        rw [h3] at h
        cases h
        exact generate_dialogue_ok_obj _ _ _ _ _ _ _ _ h3
      | failed => rw [h3] at h; cases h
      | raised => rw [h3] at h; cases h

/-- C2: (i) the success-branch finalization forces the four authoritative
fields of any record object, and (ii) every record an iteration appends to
the file carries the active language and the complexity, bucket and 1-based
case number the scheduler selected for that iteration, regardless of the
model output the record came from. -/
theorem C2_scheduler_fields :
    (∀ (o : JsonObj) (lang comp buck : String) (n : Nat),
      getField (finalizeRecord (.obj o) lang comp buck n) ("language") =
        some (.str lang.data) ∧
      getField (finalizeRecord (.obj o) lang comp buck n) ("complexity") =
        some (.str comp.data) ∧
      getField (finalizeRecord (.obj o) lang comp buck n) ("bucket") =
        some (.str buck.data) ∧
      getField (finalizeRecord (.obj o) lang comp buck n) ("case_id") =
        some (.num n)) ∧
    (∀ (lang : String) (s : GenState) (it : IterInput) (rec : Json),
      rec ∈ (iterate lang s it).file → rec ∈ s.file ∨
      ∃ comp buck tgt, nextCombo lang s.counts = some ((lang, comp, buck), tgt) ∧
        getField rec ("language") = some (.str lang.data) ∧
        getField rec ("complexity") = some (.str comp.data) ∧
        getField rec ("bucket") = some (.str buck.data) ∧
        getField rec ("case_id") = some (.num (pickedCaseIdx lang s it + 1))) := by
  refine ⟨finalizeRecord_obj_get_fixed, ?_⟩
  intro lang s it rec hrec
  cases hnc : nextCombo lang s.counts with
  | none =>
    simp only [iterate, hnc] at hrec
    exact Or.inl hrec
  | some e =>
    obtain ⟨⟨l, comp, buck⟩, tgt⟩ := e
    have hl : l = lang := nextCombo_first_component _ _ _ hnc
    subst hl
    cases har : attemptsResult l comp buck (s.total + 1)
        (pickedCaseIdx l s it + 1) it with
    | none =>
      simp only [iterate, hnc, har] at hrec
      exact Or.inl hrec
    | some r =>
      simp only [iterate, hnc, har] at hrec
      simp only [List.mem_append, List.mem_singleton] at hrec
      cases hrec with
      | inl hmem => exact Or.inl hmem
      | inr heq =>
        obtain ⟨o, ho⟩ := attemptsResult_obj _ _ _ _ _ _ _ har
        subst ho
        refine Or.inr ⟨comp, buck, tgt, rfl, ?_⟩
        rw [heq]
        exact finalizeRecord_obj_get_fixed o l comp buck _

/-- C2 witness: a state whose file already holds a record, together with an
iteration whose three attempts all fail, keeps that record in the file; the
theorem applied there yields the disjunction. -/
theorem C2_scheduler_fields_witness :
    Json.null ∈
      (iterate ("english")
        { counts := fun _ => 0, total := 0, pointer := 400,
          file := [Json.null] }
        { a1 := ⟨2, none⟩, a2 := ⟨2, none⟩, a3 := ⟨2, none⟩,
          randCase := 400 }).file ∧
    (Json.null ∈
        ({ counts := fun _ => 0, total := 0, pointer := 400,
           file := [Json.null] } : GenState).file ∨
      ∃ comp buck tgt,
        nextCombo ("english") (fun _ => 0) = some (("english", comp, buck), tgt) ∧
        getField Json.null ("language") = some (.str ("english").data) ∧
        getField Json.null ("complexity") = some (.str comp.data) ∧
        getField Json.null ("bucket") = some (.str buck.data) ∧
        getField Json.null ("case_id") =
          some (.num (pickedCaseIdx ("english")
            { counts := fun _ => 0, total := 0, pointer := 400,
              file := [Json.null] }
            { a1 := ⟨2, none⟩, a2 := ⟨2, none⟩, a3 := ⟨2, none⟩,
              randCase := 400 } + 1))) :=
  ⟨by decide,
   C2_scheduler_fields.2 ("english")
     { counts := fun _ => 0, total := 0, pointer := 400, file := [Json.null] }
     { a1 := ⟨2, none⟩, a2 := ⟨2, none⟩, a3 := ⟨2, none⟩, randCase := 400 }
     Json.null (by decide)⟩

/-- C5 counterexample: a persisted file whose first line parses to the JSON
number `7` (not a mapping) aborts the replay before the later valid line is
counted: the cell `(hindi, layman, A)` ends at 0 although exactly one
persisted line parses as JSON and matches it, and the program falls back to
a fresh overwrite. -/
theorem C5_counterexample :
    (resumeReplay ("hindi") c5lines).1 (("hindi"), ("layman"), ("A")) = 0 ∧
    c5lines.countP (lineMatchesCell ("layman") ("A")) = 1 ∧
    (0 : Nat) ≠ 1 ∧
    (resumeReplay ("hindi") c5lines).2.2 = false := by
  refine ⟨by decide, by decide, by decide, by decide⟩

theorem replayAux_cell_count (lang comp buck : String)
    (hcv : COMPLEXITY_LEVELS.any (fun c => c.data = comp.data) = true)
    (hbv : (BUCKETS.map Prod.fst).any (fun b => b.data = buck.data) = true)
    (hmem : (DISTRIBUTION_FILTERED lang).any
      (fun e => e.1 = (lang, comp, buck)) = true) :
    ∀ (lines : List String) (counts : (String × String × String) → Nat)
      (tot : Nat) (mx : Int),
      (∀ line ∈ lines, lineParsesNonObj line = false) →
      (replayAux lang lines counts tot mx).1 ((lang), comp, buck) =
        counts ((lang), comp, buck) +
          lines.countP (lineMatchesCell comp buck) ∧
      (replayAux lang lines counts tot mx).2.2.2 = true
  | [], counts, tot, mx, _ => by simp [replayAux]
  | line :: rest, counts, tot, mx, h => by
    have hline := h line (List.mem_cons_self _ _)
    have hrest : ∀ l ∈ rest, lineParsesNonObj l = false :=
      fun l hl => h l (List.mem_cons_of_mem _ hl)
    rw [List.countP_cons]
    by_cases hls : pyStrip line.data = []
    · have hm : lineMatchesCell comp buck line = false := by
        unfold lineMatchesCell
        rw [hls]
        rfl
      have ih := replayAux_cell_count lang comp buck hcv hbv hmem rest counts
        tot mx hrest
      simp only [replayAux, hls, if_true, hm]
      simpa using ih
    · cases hjl : jsonLoads (pyStrip line.data) with
      | none =>
        have hm : lineMatchesCell comp buck line = false := by
          unfold lineMatchesCell
          rw [hjl]
        have ih := replayAux_cell_count lang comp buck hcv hbv hmem rest counts
          (tot + 1) mx hrest
        simp only [replayAux, hls, if_false, hjl, hm]
        simpa using ih
      | some v =>
        cases v with
        | obj fs =>
          have hm : lineMatchesCell comp buck line =
              ((fs.get ("complexity").data = some (.str comp.data)) &&
               (fs.get ("bucket").data = some (.str buck.data))) := by
            unfold lineMatchesCell
            rw [hjl]
          simp only [replayAux, hls, if_false, hjl]
          cases hc : fs.get ("complexity").data with
          | none =>
            have hm2 : lineMatchesCell comp buck line = false := by
              rw [hm, hc]
              simp
            rw [hm2]
            have ih := replayAux_cell_count lang comp buck hcv hbv hmem rest
              counts (tot + 1) (replayMx fs mx) hrest
            simpa using ih
          | some cv =>
            cases hb : fs.get ("bucket").data with
            | none =>
              have hm2 : lineMatchesCell comp buck line = false := by
                rw [hm, hb]
                simp
              rw [hm2]
              cases cv <;>
              · have ih := replayAux_cell_count lang comp buck hcv hbv hmem
                  rest counts (tot + 1) (replayMx fs mx) hrest
                simpa using ih
            | some bv =>
              cases cv with
              | str comp_l =>
                cases bv with
                | str buck_l =>
                  by_cases h1 : comp_l = comp.data
                  · by_cases h2 : buck_l = buck.data
                    · subst h1
                      subst h2
                      have hm2 : lineMatchesCell comp buck line = true := by
                        rw [hm, hc, hb]
                        simp
                      rw [hm2]
                      have hkey : (String.mk comp.data) = comp := rfl
                      have hkey2 : (String.mk buck.data) = buck := rfl
                      simp only [hcv, hbv, hkey, hkey2, hmem, Bool.and_self,
                        if_true]
                      have ih := replayAux_cell_count lang comp buck hcv hbv
                        hmem rest
                        (fun c => if c = ((lang), comp, buck) then counts c + 1
                          else counts c) (tot + 1) (replayMx fs mx) hrest
                      rw [ih.1]
                      refine ⟨?_, ih.2⟩
                      have hbeta : (fun c => if c = ((lang), comp, buck) then
                          counts c + 1 else counts c) ((lang), comp, buck) =
                          counts ((lang), comp, buck) + 1 := by simp
                      rw [hbeta]
                      omega
                    · have hm2 : lineMatchesCell comp buck line = false := by
                        rw [hm, hc, hb]
                        simp [h2]
                      simp only [hm2, Bool.false_eq_true, if_false, add_zero]
                      have hupd : ∀ counts2 : (String × String × String) → Nat,
                          (fun c => if c = ((lang), String.mk comp_l,
                            String.mk buck_l) then counts2 c + 1 else counts2 c)
                            ((lang), comp, buck) = counts2 ((lang), comp, buck) := by
                        intro counts2
                        have hne : ¬ (((lang), comp, buck) =
                            ((lang), String.mk comp_l, String.mk buck_l)) := by
                          intro he
                          apply h2
                          have := congrArg (fun p => p.2.2) he
                          simp at this
                          rw [this]
                        simp [hne]
                      split
                      · split
                        · have ih := replayAux_cell_count lang comp buck hcv hbv
                            hmem rest
                            (fun c => if c = ((lang), String.mk comp_l,
                              String.mk buck_l) then counts c + 1 else counts c)
                            (tot + 1) (replayMx fs mx) hrest
                          refine ⟨?_, ih.2⟩
                          rw [ih.1, hupd]
                        · exact replayAux_cell_count lang comp buck hcv hbv
                            hmem rest counts (tot + 1) (replayMx fs mx) hrest
                      · exact replayAux_cell_count lang comp buck hcv hbv
                          hmem rest counts (tot + 1) (replayMx fs mx) hrest
                  · have hm2 : lineMatchesCell comp buck line = false := by
                      rw [hm, hc, hb]
                      simp [h1]
                    simp only [hm2, Bool.false_eq_true, if_false, add_zero]
                    have hupd : ∀ counts2 : (String × String × String) → Nat,
                        (fun c => if c = ((lang), String.mk comp_l,
                          String.mk buck_l) then counts2 c + 1 else counts2 c)
                          ((lang), comp, buck) = counts2 ((lang), comp, buck) := by
                      intro counts2
                      have hne : ¬ (((lang), comp, buck) =
                          ((lang), String.mk comp_l, String.mk buck_l)) := by
                        intro he
                        apply h1
                        have := congrArg (fun p => p.2.1) he
                        simp at this
                        rw [this]
                      simp [hne]
                    split
                    · split
                      · have ih := replayAux_cell_count lang comp buck hcv hbv
                          hmem rest
                          (fun c => if c = ((lang), String.mk comp_l,
                            String.mk buck_l) then counts c + 1 else counts c)
                          (tot + 1) (replayMx fs mx) hrest
                        refine ⟨?_, ih.2⟩
                        rw [ih.1, hupd]
                      · exact replayAux_cell_count lang comp buck hcv hbv
                          hmem rest counts (tot + 1) (replayMx fs mx) hrest
                    · exact replayAux_cell_count lang comp buck hcv hbv
                        hmem rest counts (tot + 1) (replayMx fs mx) hrest
                | null | bool _ | num _ | arr _ | obj _ =>
                  have hm2 : lineMatchesCell comp buck line = false := by
                    rw [hm, hb]
                    simp
                  rw [hm2]
                  have ih := replayAux_cell_count lang comp buck hcv hbv hmem
                    rest counts (tot + 1) (replayMx fs mx) hrest
                  simpa using ih
              | null | bool _ | num _ | arr _ | obj _ =>
                have hm2 : lineMatchesCell comp buck line = false := by
                  rw [hm, hc]
                  simp
                rw [hm2]
                have ih := replayAux_cell_count lang comp buck hcv hbv hmem
                  rest counts (tot + 1) (replayMx fs mx) hrest
                simpa using ih
        | null | bool _ | num _ | str _ | arr _ =>
          unfold lineParsesNonObj at hline
          rw [hjl] at hline
          simp at hline

theorem replayAux_ok (lang : String) :
    ∀ (lines : List String) (counts : (String × String × String) → Nat)
      (tot : Nat) (mx : Int),
      (∀ line ∈ lines, lineParsesNonObj line = false) →
      (replayAux lang lines counts tot mx).2.2.2 = true
  | [], _, _, _, _ => by simp [replayAux]
  | line :: rest, counts, tot, mx, h => by
    have hline := h line (List.mem_cons_self _ _)
    have hrest : ∀ l ∈ rest, lineParsesNonObj l = false :=
      fun l hl => h l (List.mem_cons_of_mem _ hl)
    by_cases hls : pyStrip line.data = []
    · simp only [replayAux, hls, if_true]
      exact replayAux_ok lang rest counts tot mx hrest
    · cases hjl : jsonLoads (pyStrip line.data) with
      | none =>
        simp only [replayAux, hls, if_false, hjl]
        exact replayAux_ok lang rest counts (tot + 1) mx hrest
      | some v =>
        cases v with
        | obj fs =>
          simp only [replayAux, hls, if_false, hjl]
          exact replayAux_ok lang rest _ (tot + 1) (replayMx fs mx) hrest
        | null | bool _ | num _ | str _ | arr _ =>
          unfold lineParsesNonObj at hline
          rw [hjl] at hline
          simp at hline

theorem distribution_entry_valid :
    ∀ e ∈ DISTRIBUTION,
      (COMPLEXITY_LEVELS.any (fun c => c.data = e.1.2.1.data) = true) ∧
      ((BUCKETS.map Prod.fst).any (fun b => b.data = e.1.2.2.data) = true) := by
  decide

/-- C5 (amended): provided every persisted line that parses as JSON parses
to a mapping — true in particular of files written by prior runs — the
replay completes, and each quota cell of the active language ends with
exactly the number of persisted lines that parse as JSON and match that
cell's complexity and bucket (counts start at zero and are never
decreased); the re-derived next-case pointer is at least the start of the
language's case range.  (A line parsing to a non-mapping JSON value instead
aborts the replay, leaving the counts at the values accumulated so far and
falling back to a fresh overwrite — see the counterexample.) -/
theorem C5_replay_counts (lang : String) (lines : List String)
    (h : ∀ line ∈ lines, lineParsesNonObj line = false) :
    (resumeReplay lang lines).2.2 = true ∧
    (∀ e ∈ DISTRIBUTION_FILTERED lang,
      (resumeReplay lang lines).1 e.1 =
        lines.countP (lineMatchesCell e.1.2.1 e.1.2.2)) ∧
    (CASE_RANGES lang).1 ≤ (resumeReplay lang lines).2.1 := by
  have hok := replayAux_ok lang lines (fun _ => 0) 0 0 h
  rcases hrep : replayAux lang lines (fun _ => 0) 0 0 with ⟨c, t, m, ok⟩
  rw [hrep] at hok
  simp at hok
  subst hok
  refine ⟨?_, ?_, ?_⟩
  · unfold resumeReplay
    rw [hrep]
  · intro e he
    have hlang : e.1.1 = lang := by
      have hm := List.mem_filter.mp
        (show e ∈ DISTRIBUTION.filter (fun x => x.1.1 = lang) from he)
      exact of_decide_eq_true hm.2
    have hd : e ∈ DISTRIBUTION := List.mem_of_mem_filter he
    have hvalid := distribution_entry_valid e hd
    have he1 : e.1 = ((lang), e.1.2.1, e.1.2.2) := by
      rw [← hlang]
    have hmem : (DISTRIBUTION_FILTERED lang).any
        (fun x => x.1 = ((lang), e.1.2.1, e.1.2.2)) = true :=
      List.any_eq_true.mpr ⟨e, he, decide_eq_true he1⟩
    have hcount := replayAux_cell_count lang e.1.2.1 e.1.2.2 hvalid.1 hvalid.2
      hmem lines (fun _ => 0) 0 0 h
    rw [hrep] at hcount
    unfold resumeReplay
    rw [hrep]
    rw [he1]
    simpa using hcount.1
  · unfold resumeReplay
    rw [hrep]
    show (CASE_RANGES lang).1 ≤
      (if m < ((CASE_RANGES lang).1 : Int) then (CASE_RANGES lang).1
        else m.toNat)
    split
    · exact Nat.le_refl _
    · omega

/-- C5 witness: a well-formed one-record file (plus a blank line) replays to
count 1 for the matching cell, with the pointer inside the range. -/
theorem C5_replay_counts_witness :
    (resumeReplay ("hindi") c5wlines).2.2 = true ∧
    (resumeReplay ("hindi") c5wlines).1 (("hindi"), ("layman"), ("A")) =
      c5wlines.countP (lineMatchesCell ("layman") ("A")) ∧
    (CASE_RANGES ("hindi")).1 ≤ (resumeReplay ("hindi") c5wlines).2.1 := by
  have h := C5_replay_counts ("hindi") c5wlines (by decide)
  exact ⟨h.1, h.2.1 ((("hindi"), ("layman"), ("A")), 33) (by decide), h.2.2⟩

theorem digitsToNat_append (ds : List Char) (c : Char) :
    digitsToNat (ds ++ [c]) = digitsToNat ds * 10 + digitVal c := by
  unfold digitsToNat
  rw [List.foldl_append]
  rfl

theorem digitVal_ofNat (n : Nat) (h : n < 10) :
    digitVal (Char.ofNat (48 + n)) = n := by
  interval_cases n <;> rfl

theorem natDigitsAux_toNat : ∀ (fuel n : Nat), n < fuel →
    digitsToNat (natDigitsAux fuel n) = n
  | 0, n, h => absurd h (Nat.not_lt_zero n)
  | fuel + 1, n, h => by
    unfold natDigitsAux
    by_cases h10 : n < 10
    · simp only [h10, if_true]
      show digitsToNat ([] ++ [Char.ofNat (48 + n)]) = n
      rw [digitsToNat_append, digitVal_ofNat n h10]
      show 0 * 10 + n = n
      omega
    · simp only [h10, if_false]
      rw [digitsToNat_append, natDigitsAux_toNat fuel (n / 10) (by omega),
        digitVal_ofNat (n % 10) (by omega)]
      omega

theorem digitsToNat_natDigits (n : Nat) : digitsToNat (natDigits n) = n :=
  natDigitsAux_toNat (n + 1) n (Nat.lt_succ_self n)

theorem foldl_digits_replicate_zero : ∀ k : Nat,
    (List.replicate k (Char.ofNat 48)).foldl
      (fun acc c => acc * 10 + digitVal c) 0 = 0
  | 0 => rfl
  | k + 1 => by
    rw [List.replicate_succ, List.foldl_cons]
    exact foldl_digits_replicate_zero k

theorem digitsToNat_padZeros (w n : Nat) : digitsToNat (padZeros w n) = n := by
  unfold padZeros digitsToNat
  rw [List.foldl_append, foldl_digits_replicate_zero]
  exact digitsToNat_natDigits n

theorem padZeros_inj (w m n : Nat) (h : padZeros w m = padZeros w n) :
    m = n := by
  have h2 := congrArg digitsToNat h
  rwa [digitsToNat_padZeros, digitsToNat_padZeros] at h2

theorem natDigitsAux_length_one : ∀ (fuel n : Nat), n < fuel → n < 10 →
    (natDigitsAux fuel n).length = 1
  | 0, n, h, _ => absurd h (Nat.not_lt_zero n)
  | fuel + 1, n, _, h10 => by simp [natDigitsAux, h10]

theorem natDigitsAux_length_le_two : ∀ (fuel n : Nat), n < fuel → n < 100 →
    (natDigitsAux fuel n).length ≤ 2
  | 0, n, h, _ => absurd h (Nat.not_lt_zero n)
  | fuel + 1, n, h, h100 => by
    unfold natDigitsAux
    by_cases h10 : n < 10
    · simp [h10]
    · simp only [h10, if_false, List.length_append, List.length_singleton]
      have := natDigitsAux_length_one fuel (n / 10) (by omega) (by omega)
      omega

theorem natDigitsAux_length_le_three : ∀ (fuel n : Nat), n < fuel → n < 1000 →
    (natDigitsAux fuel n).length ≤ 3
  | 0, n, h, _ => absurd h (Nat.not_lt_zero n)
  | fuel + 1, n, h, hk => by
    unfold natDigitsAux
    by_cases h10 : n < 10
    · simp [h10]
    · simp only [h10, if_false, List.length_append, List.length_singleton]
      have := natDigitsAux_length_le_two fuel (n / 10) (by omega) (by omega)
      omega

theorem padZeros_three_length (n : Nat) (h : n ≤ 999) :
    (padZeros 3 n).length = 3 := by
  unfold padZeros
  rw [List.length_append, List.length_replicate]
  have := natDigitsAux_length_le_three (n + 1) n (Nat.lt_succ_self n)
    (by omega)
  unfold natDigits
  omega

theorem append_padZeros_ne (A B : List Char) (m n : Nat) (hm : m ≤ 999)
    (hn : n ≤ 999) (hne : m ≠ n) :
    A ++ padZeros 3 m ≠ B ++ padZeros 3 n := by
  intro h
  have hlm := padZeros_three_length m hm
  have hln := padZeros_three_length n hn
  have hlen := congrArg List.length h
  rw [List.length_append, List.length_append, hlm, hln] at hlen
  have hAB : A.length = B.length := by omega
  have := (List.append_inj h hAB).2
  exact hne (padZeros_inj 3 m n this)

theorem dialogueIdChars_decomp (l b : String) (c i : Nat) :
    ∃ A, dialogueIdChars l b c i = A ++ padZeros 3 i :=
  ⟨(langPrefixOf l).data ++ cUnderscore :: b.data ++
      cUnderscore :: Char.ofNat 67 :: padZeros 4 c ++ [cUnderscore], by
    simp [dialogueIdChars]⟩

theorem generate_dialogue_ok_id (turnsDraw : Nat) (output : Option String)
    (bucket_key : String) (idx : Nat) (complexity language : String)
    (case_id : Nat) (r : Json)
    (h : generate_dialogue turnsDraw output bucket_key idx complexity
      language case_id = .ok r) :
    getField r ("dialogue_id") =
      some (.str (dialogueIdChars language bucket_key case_id idx)) := by
  cases output with
  | none => simp [generate_dialogue] at h
  | some out =>
    simp only [generate_dialogue] at h
    cases hp : safe_parse_json out with
    | none =>
      rw [hp] at h
      have h2 : GenResult.ok (create_fallback_dialogue turnsDraw complexity
        bucket_key idx language case_id) = .ok r := h
      injection h2 with h3
      rw [← h3]
      rfl
    | some v =>
      rw [hp] at h
      cases v with
      | obj o =>
        cases o with
        | nil =>
          have h2 : GenResult.ok (create_fallback_dialogue turnsDraw complexity
            bucket_key idx language case_id) = .ok r := h
          injection h2 with h3
          rw [← h3]
          rfl
        | cons k w rest =>
          obtain ⟨a, _, _, hr⟩ :=
            validateParsedDialogue_ok_shape _ _ _ _ _ _ _ _ h
          rw [hr]
          show ((vpdPrepared (.cons k w rest) turnsDraw bucket_key idx
            complexity language case_id).set ("turns").data
              (.arr (filterTurns a))).get ("dialogue_id").data = _
          rw [JsonObj.get_set_ne _ _ _
            (show ("turns").data ≠ ("dialogue_id").data by decide),
            vpdPrepared_get_dialogue_id]
      | null =>
        have h2 : GenResult.ok (create_fallback_dialogue turnsDraw complexity
          bucket_key idx language case_id) = .ok r := h
        injection h2 with h3
        rw [← h3]
        rfl
      | bool b =>
        have h2 : GenResult.ok (create_fallback_dialogue turnsDraw complexity
          bucket_key idx language case_id) = .ok r := h
        injection h2 with h3
        rw [← h3]
        rfl
      | num n =>
        have h2 : GenResult.ok (create_fallback_dialogue turnsDraw complexity
          bucket_key idx language case_id) = .ok r := h
        injection h2 with h3
        rw [← h3]
        rfl
      | str s =>
        have h2 : GenResult.ok (create_fallback_dialogue turnsDraw complexity
          bucket_key idx language case_id) = .ok r := h
        injection h2 with h3
        rw [← h3]
        rfl
      | arr a =>
        have h2 : GenResult.ok (create_fallback_dialogue turnsDraw complexity
          bucket_key idx language case_id) = .ok r := h
        injection h2 with h3
        rw [← h3]
        rfl

theorem attemptsResult_id (lang comp buck : String) (idx caseNumber : Nat)
    (it : IterInput) (r : Json)
    (h : attemptsResult lang comp buck idx caseNumber it = some r) :
    getField r ("dialogue_id") =
      some (.str (dialogueIdChars lang buck caseNumber idx)) := by
  unfold attemptsResult at h
  cases h1 : generate_dialogue it.a1.turnsDraw it.a1.output buck idx comp lang
      caseNumber with
  | ok r1 =>
    rw [h1] at h
    cases h
    exact generate_dialogue_ok_id _ _ _ _ _ _ _ _ h1
  | failed =>
    rw [h1] at h
    cases h2 : generate_dialogue it.a2.turnsDraw it.a2.output buck idx comp
        lang caseNumber with
    | ok r2 =>
      rw [h2] at h
      cases h
      exact generate_dialogue_ok_id _ _ _ _ _ _ _ _ h2
    | failed =>
      rw [h2] at h
      cases h3 : generate_dialogue it.a3.turnsDraw it.a3.output buck idx comp
          lang caseNumber with
      | ok r3 =>
        rw [h3] at h
        cases h
        exact generate_dialogue_ok_id _ _ _ _ _ _ _ _ h3
      | failed => rw [h3] at h; cases h
      | raised => rw [h3] at h; cases h
    | raised =>
      rw [h2] at h
      cases h3 : generate_dialogue it.a3.turnsDraw it.a3.output buck idx comp
          lang caseNumber with
      | ok r3 =>
        rw [h3] at h
        cases h
        exact generate_dialogue_ok_id _ _ _ _ _ _ _ _ h3
      | failed => rw [h3] at h; cases h
      | raised => rw [h3] at h; cases h
  | raised =>
    rw [h1] at h
    cases h2 : generate_dialogue it.a2.turnsDraw it.a2.output buck idx comp
        lang caseNumber with
    | ok r2 =>
      rw [h2] at h
      cases h
      exact generate_dialogue_ok_id _ _ _ _ _ _ _ _ h2
    | failed =>
      rw [h2] at h
      cases h3 : generate_dialogue it.a3.turnsDraw it.a3.output buck idx comp
          lang caseNumber with
      | ok r3 =>
        rw [h3] at h
        cases h
        exact generate_dialogue_ok_id _ _ _ _ _ _ _ _ h3
      | failed => rw [h3] at h; cases h
      | raised => rw [h3] at h; cases h
    | raised =>
      rw [h2] at h
      cases h3 : generate_dialogue it.a3.turnsDraw it.a3.output buck idx comp
          lang caseNumber with
      | ok r3 =>
        rw [h3] at h
        cases h
        exact generate_dialogue_ok_id _ _ _ _ _ _ _ _ h3
      | failed => rw [h3] at h; cases h
      | raised => rw [h3] at h; cases h

theorem iterate_file_inv (lang : String) (s : GenState) (it : IterInput)
    (h1 : s.total = s.file.length) (h3 : s.file.length ≤ TARGET_SAMPLES)
    (hg : s.total < TARGET_SAMPLES) (h2 : fileIdInv s.file) :
    (iterate lang s it).total = (iterate lang s it).file.length ∧
    (iterate lang s it).file.length ≤ TARGET_SAMPLES ∧
    fileIdInv (iterate lang s it).file := by
  cases hnc : nextCombo lang s.counts with
  | none =>
    simp only [iterate, hnc]
    exact ⟨h1, h3, h2⟩
  | some e =>
    obtain ⟨⟨l, comp, buck⟩, tgt⟩ := e
    cases har : attemptsResult lang comp buck (s.total + 1)
        (pickedCaseIdx lang s it + 1) it with
    | none =>
      simp only [iterate, hnc, har]
      exact ⟨h1, h3, h2⟩
    | some r =>
      simp only [iterate, hnc, har]
      refine ⟨?_, ?_, ?_⟩
      · rw [List.length_append, List.length_singleton, h1]
      · rw [List.length_append, List.length_singleton]
        omega
      · intro k hk
        rw [List.length_append, List.length_singleton] at hk
        by_cases hlt : k < s.file.length
        · obtain ⟨A, hA⟩ := h2 k hlt
          refine ⟨A, ?_⟩
          rw [List.get_eq_getElem, List.getElem_append_left hlt]
          rw [List.get_eq_getElem] at hA
          exact hA
        · have hke : k = s.file.length := by omega
          obtain ⟨o, ho⟩ := attemptsResult_obj _ _ _ _ _ _ _ har
          have hid := attemptsResult_id _ _ _ _ _ _ _ har
          obtain ⟨A, hdec⟩ := dialogueIdChars_decomp lang buck
            (pickedCaseIdx lang s it + 1) (s.total + 1)
          refine ⟨A, ?_⟩
          rw [List.get_eq_getElem]
          have hge : s.file.length ≤ k := by omega
          rw [List.getElem_append_right hge]
          have hzero : k - s.file.length = 0 := by omega
          simp only [hzero, List.getElem_singleton]
          have hpres := finalizeRecord_obj_get_other o lang comp buck
            (pickedCaseIdx lang s it + 1) ("dialogue_id").data (by decide)
            (by decide) (by decide) (by decide)
          subst ho
          show (match finalizeRecord (.obj o) lang comp buck
            (pickedCaseIdx lang s it + 1) with
            | .obj fs => fs.get ("dialogue_id").data
            | _ => none) = _
          rw [hpres]
          have hoid : o.get ("dialogue_id").data =
              some (.str (dialogueIdChars lang buck
                (pickedCaseIdx lang s it + 1) (s.total + 1))) := hid
          rw [hoid, hdec, h1, hke]

theorem runLoop_file_inv (lang : String) :
    ∀ (tr : List IterInput) (s : GenState),
      s.total = s.file.length → s.file.length ≤ TARGET_SAMPLES →
      fileIdInv s.file →
      (runLoop lang s tr).total = (runLoop lang s tr).file.length ∧
      (runLoop lang s tr).file.length ≤ TARGET_SAMPLES ∧
      fileIdInv (runLoop lang s tr).file
  | [], s, h1, h3, h2 => ⟨h1, h3, h2⟩
  | it :: its, s, h1, h3, h2 => by
    simp only [runLoop]
    by_cases hg : s.total < TARGET_SAMPLES
    · rw [if_pos hg]
      cases hnc : nextCombo lang s.counts with
      | none => exact ⟨h1, h3, h2⟩
      | some e =>
        have hit := iterate_file_inv lang s it h1 h3 hg h2
        exact runLoop_file_inv lang its _ hit.1 hit.2.1 hit.2.2
    · rw [if_neg hg]
      exact ⟨h1, h3, h2⟩

/-- C7: starting from any state whose file satisfies the position-identifier
invariant (in particular a fresh empty file, or one written by prior runs of
this loop, whose total equals the file's record count and is within the
target), every run leaves the dialogue identifiers of all records in the
output file pairwise distinct: each record's identifier ends with the
zero-padded running total at its write, which is its 1-based file
position. -/
theorem C7_dialogue_ids_distinct (lang : String) (s₀ : GenState)
    (tr : List IterInput) (h1 : s₀.total = s₀.file.length)
    (h2 : fileIdInv s₀.file) (h3 : s₀.file.length ≤ TARGET_SAMPLES)
    (i j : Nat) (hi : i < (runLoop lang s₀ tr).file.length)
    (hj : j < (runLoop lang s₀ tr).file.length) (hij : i ≠ j) :
    getField ((runLoop lang s₀ tr).file.get ⟨i, hi⟩) ("dialogue_id") ≠
      getField ((runLoop lang s₀ tr).file.get ⟨j, hj⟩) ("dialogue_id") := by
  obtain ⟨-, hlen, hinv⟩ := runLoop_file_inv lang tr s₀ h1 h3 h2
  obtain ⟨A, hA⟩ := hinv i hi
  obtain ⟨B, hB⟩ := hinv j hj
  rw [hA, hB]
  intro h
  have hT : TARGET_SAMPLES = 400 := rfl
  injection h with h'
  injection h' with h''
  exact append_padZeros_ne A B (i + 1) (j + 1) (by omega) (by omega)
    (by omega) h''

/-- C7 witness: a fresh english run with two accepted fallback records has
distinct identifiers on the two file entries. -/
theorem C7_witness :
    getField ((runLoop ("english") (freshState ("english"))
        [itG, itG]).file.get ⟨0, by decide⟩) ("dialogue_id") ≠
      getField ((runLoop ("english") (freshState ("english"))
        [itG, itG]).file.get ⟨1, by decide⟩) ("dialogue_id") :=
  C7_dialogue_ids_distinct ("english") (freshState ("english")) [itG, itG]
    (by decide) (fun k hk => absurd hk (Nat.not_lt_zero k)) (by decide)
    0 1 (by decide) (by decide) (by decide)

theorem charOutOk_digit (d : Nat) (h : d < 10) :
    charOutOk (Char.ofNat (48 + d)) = true := by
  interval_cases d <;> decide

theorem natDigitsAux_charOk : ∀ (fuel n : Nat), ∀ c ∈ natDigitsAux fuel n,
    charOutOk c = true
  | 0, n => by simp [natDigitsAux]
  | fuel + 1, n => by
    unfold natDigitsAux
    by_cases h10 : n < 10
    · simp only [h10, if_true, List.mem_singleton]
      intro c hc
      subst hc
      exact charOutOk_digit n h10
    · simp only [h10, if_false, List.mem_append, List.mem_singleton]
      intro c hc
      rcases hc with hc | hc
      · exact natDigitsAux_charOk fuel (n / 10) c hc
      · subst hc
        exact charOutOk_digit (n % 10) (by omega)

theorem serializeInt_charOk (n : Int) : ∀ c ∈ serializeInt n,
    charOutOk c = true := by
  unfold serializeInt
  split
  · intro c hc
    rcases List.mem_cons.mp hc with hc | hc
    · subst hc; decide
    · exact natDigitsAux_charOk _ _ c hc
  · intro c hc
    exact natDigitsAux_charOk _ _ c hc

theorem plainChar_charOk (c : Char) (h : plainChar c = true) :
    charOutOk c = true := by
  unfold plainChar at h
  unfold charOutOk
  simp only [Bool.and_eq_true, decide_eq_true_eq] at h ⊢
  tauto

mutual

theorem serialize_charOk : ∀ (v : Json), plainJson v = true →
    ∀ c ∈ serialize v, charOutOk c = true
  | .null, _ => by intro c hc; fin_cases hc <;> decide
  | .bool true, _ => by intro c hc; fin_cases hc <;> decide
  | .bool false, _ => by intro c hc; fin_cases hc <;> decide
  | .num n, _ => serializeInt_charOk n
  | .str s, hp => by
    intro c hc
    simp only [serialize, List.mem_append, List.mem_singleton,
      List.mem_cons, List.not_mem_nil, or_false] at hc
    rcases hc with (hc | hc) | hc
    · subst hc; decide
    · exact plainChar_charOk c
        (List.all_eq_true.mp (by simpa [plainJson] using hp) c hc)
    · subst hc; decide
  | .arr a, hp => by
    intro c hc
    simp only [serialize, List.mem_append, List.mem_singleton,
      List.mem_cons, List.not_mem_nil, or_false] at hc
    rcases hc with (hc | hc) | hc
    · subst hc; decide
    · exact serializeArr_charOk a (by simpa [plainJson] using hp) c hc
    · subst hc; decide
  | .obj o, hp => by
    intro c hc
    simp only [serialize, List.mem_append, List.mem_singleton,
      List.mem_cons, List.not_mem_nil, or_false] at hc
    rcases hc with (hc | hc) | hc
    · subst hc; decide
    · exact serializeObj_charOk o (by simpa [plainJson] using hp) c hc
    · subst hc; decide

theorem serializeArr_charOk : ∀ (a : JsonArr), plainArr a = true →
    ∀ c ∈ serializeArr a, charOutOk c = true
  | .nil, _ => by simp [serializeArr]
  | .cons v .nil, hp => by
    intro c hc
    have hp' : (plainJson v && plainArr .nil) = true := hp
    simp only [Bool.and_eq_true] at hp'
    exact serialize_charOk v hp'.1 c (by simpa [serializeArr] using hc)
  | .cons v (.cons w rest), hp => by
    intro c hc
    have hp' : (plainJson v && plainArr (.cons w rest)) = true := hp
    simp only [Bool.and_eq_true] at hp'
    simp only [serializeArr, List.mem_append, List.mem_singleton,
      List.mem_cons, List.not_mem_nil, or_false] at hc
    rcases hc with (hc | hc) | hc
    · exact serialize_charOk v hp'.1 c hc
    · subst hc; decide
    · exact serializeArr_charOk (.cons w rest) hp'.2 c hc

theorem serializeObj_charOk : ∀ (o : JsonObj), plainObj o = true →
    ∀ c ∈ serializeObj o, charOutOk c = true
  | .nil, _ => by simp [serializeObj]
  | .cons k v .nil, hp => by
    intro c hc
    have hp' : (k.all plainChar && plainJson v &&
        !(JsonObj.hasKey k JsonObj.nil) && plainObj .nil) = true := hp
    simp only [Bool.and_eq_true] at hp'
    simp only [serializeObj, List.mem_append, List.mem_singleton,
      List.mem_cons, List.not_mem_nil, or_false] at hc
    rcases hc with ((hc | hc) | (hc | hc)) | hc
    · subst hc; decide
    · exact plainChar_charOk c (List.all_eq_true.mp hp'.1.1.1 c hc)
    · subst hc; decide
    · subst hc; decide
    · exact serialize_charOk v hp'.1.1.2 c hc
  | .cons k v (.cons k2 v2 rest), hp => by
    intro c hc
    have hp' : (k.all plainChar && plainJson v &&
        !(JsonObj.hasKey k (.cons k2 v2 rest)) &&
        plainObj (.cons k2 v2 rest)) = true := hp
    simp only [Bool.and_eq_true] at hp'
    simp only [serializeObj, List.mem_append, List.mem_singleton,
      List.mem_cons, List.not_mem_nil, or_false] at hc
    rcases hc with ((((hc | hc) | (hc | hc)) | hc) | hc) | hc
    · subst hc; decide
    · exact plainChar_charOk c (List.all_eq_true.mp hp'.1.1.1 c hc)
    · subst hc; decide
    · subst hc; decide
    · exact serialize_charOk v hp'.1.1.2 c hc
    · subst hc; decide
    · exact serializeObj_charOk (.cons k2 v2 rest) hp'.2 c hc

end

/-- C8 counterexample: an object whose string value embeds a fenced empty
object.  It parses unchanged after trailing-comma cleanup (first
conjunct), yet `safe_parse_json` on the fenced, trailing-comma text
recovers the full object while on the bare comma-free text the
code-block strategy fires on the embedded fence and returns the inner
empty object — the two results differ. -/
theorem C8_counterexample :
    jsonLoads (removeTrailingCommas (ce8bare).data) = some ce8full ∧
    safe_parse_json ce8fenced = some ce8full ∧
    safe_parse_json ce8bare = some (Json.obj .nil) ∧
    safe_parse_json ce8fenced ≠ safe_parse_json ce8bare := by
  refine ⟨by decide, by decide, by decide, by decide⟩

theorem skipWs_cons_of_not_ws (c : Char) (l : List Char) (h : isWs c = false) :
    skipWs (c :: l) = c :: l := by
  simp [skipWs, h]

theorem mem_of_skipWs : ∀ (l : List Char) (c : Char) (t : List Char),
    skipWs l = c :: t → c ∈ l
  | [], c, t => by simp [skipWs]
  | d :: rest, c, t => by
    intro h
    by_cases hw : isWs d = true
    · simp only [skipWs, hw, if_true] at h
      exact List.mem_cons_of_mem d (mem_of_skipWs rest c t h)
    · rw [skipWs_cons_of_not_ws d rest (eq_false_of_ne_true hw)] at h
      rw [List.cons.injEq] at h
      exact h.1 ▸ List.mem_cons_self d rest

theorem fenceFollows_false (c : Char) (t : List Char) (hw : isWs c = false)
    (hb : ¬ c = cBacktick) : fenceFollows (c :: t) = false := by
  unfold fenceFollows
  rw [skipWs_cons_of_not_ws c t hw]
  match t with
  | [] => rfl
  | [x] => rfl
  | x :: y :: r => simp [hb]

theorem commaSafeS_tail (c : Char) (l : List Char)
    (h : commaSafeS (c :: l) = true) : commaSafeS l = true := by
  match l with
  | [] => rfl
  | d :: rest =>
    have h' : ((if c = cComma then goodNext d else true) &&
        commaSafeS (d :: rest)) = true := h
    exact (Bool.and_eq_true .. ▸ h').2

theorem commaSafeS_head_not_comma : ∀ (l : List Char),
    commaSafeS l = true → ∀ d t, l = cComma :: d :: t → goodNext d = true := by
  intro l h d t he
  subst he
  have h' : ((if cComma = cComma then goodNext d else true) &&
      commaSafeS (d :: t)) = true := h
  simpa using (Bool.and_eq_true .. ▸ h').1

theorem commaSafeS_append : ∀ (l m : List Char), commaSafeS l = true →
    commaSafeS m = true → commaSafeS (l ++ m) = true
  | [], m => by intro _ hm; simpa using hm
  | [c], m => by
    intro hl hm
    have hc : ¬ c = cComma := by simpa [commaSafeS] using hl
    match m with
    | [] => simpa [commaSafeS] using hl
    | d :: rest =>
      show commaSafeS (c :: d :: rest) = true
      have : (if c = cComma then goodNext d else true) = true := by simp [hc]
      simp only [commaSafeS, this, Bool.true_and]
      exact hm
  | c :: d :: rest, m => by
    intro hl hm
    have h1 : (if c = cComma then goodNext d else true) = true :=
      (Bool.and_eq_true .. ▸ (hl : ((if c = cComma then goodNext d else true) &&
        commaSafeS (d :: rest)) = true)).1
    have h2 := commaSafeS_append (d :: rest) m (commaSafeS_tail c _ hl) hm
    show commaSafeS (c :: d :: rest ++ m) = true
    simp only [List.cons_append, commaSafeS, h1, Bool.true_and] at h2 ⊢
    exact h2

theorem commaSafeS_of_no_comma : ∀ (l : List Char),
    (∀ c ∈ l, ¬ c = cComma) → commaSafeS l = true
  | [] => by intro _; rfl
  | [c] => by
    intro h
    simpa [commaSafeS] using h c (List.mem_singleton.mpr rfl)
  | c :: d :: rest => by
    intro h
    have hc : ¬ c = cComma := h c (List.mem_cons_self c _)
    have ih := commaSafeS_of_no_comma (d :: rest)
      (fun x hx => h x (List.mem_cons_of_mem c hx))
    show commaSafeS (c :: d :: rest) = true
    simp [commaSafeS, hc, ih]

/-- A comma-safe text is a fixed point of the trailing-comma substitution. -/
theorem removeTrailingCommasAux_id : ∀ (fuel : Nat) (l : List Char),
    commaSafeS l = true → removeTrailingCommasAux fuel l = l
  | 0, l => by intro _; rfl
  | fuel + 1, [] => by intro _; rfl
  | fuel + 1, c :: rest => by
    intro h
    have ih := removeTrailingCommasAux_id fuel rest (commaSafeS_tail c rest h)
    by_cases hc : c = cComma
    · subst hc
      match rest with
      | [] => exact absurd h (by decide)
      | d :: rest2 =>
        have hg : goodNext d = true := commaSafeS_head_not_comma _ h d rest2 rfl
        have hg3 : isWs d = false ∧ ¬ d = cRBrace ∧ ¬ d = cRBrack := by
          simpa [goodNext, Bool.and_eq_true, Bool.not_eq_true',
            decide_eq_true_eq, and_assoc] using hg
        simp only [removeTrailingCommasAux, if_pos rfl,
          skipWs_cons_of_not_ws d rest2 hg3.1, ih]
        simp [hg3.2.1, hg3.2.2]
    · simp only [removeTrailingCommasAux, hc, if_false, ih]

theorem removeTrailingCommasAux_nil (fuel : Nat) :
    removeTrailingCommasAux fuel [] = [] := by
  cases fuel <;> rfl

/-- The trailing-comma substitution removes a comma inserted right before a
closing brace at the end of a comma-safe text. -/
theorem removeTrailingCommasAux_comma_close :
    ∀ (fuel : Nat) (inner : List Char), inner.length < fuel →
    commaSafeS inner = true →
    removeTrailingCommasAux fuel (inner ++ [cComma, cRBrace]) =
      inner ++ [cRBrace]
  | 0, inner => by intro hf; exact absurd hf (by omega)
  | fuel + 1, [] => by
    intro _ _
    show removeTrailingCommasAux (fuel + 1) [cComma, cRBrace] = [cRBrace]
    simp only [removeTrailingCommasAux, if_pos rfl,
      skipWs_cons_of_not_ws cRBrace [] (by decide),
      removeTrailingCommasAux_nil]
    simp
  | fuel + 1, c :: inner2 => by
    intro hf h
    have hlen : inner2.length < fuel := by
      simpa [List.length_cons, Nat.add_lt_add_iff_right] using hf
    have ih := removeTrailingCommasAux_comma_close fuel inner2 hlen
      (commaSafeS_tail c inner2 h)
    by_cases hc : c = cComma
    · subst hc
      match inner2, h with
      | [], h => exact absurd h (by decide)
      | d :: t, h =>
        have hg : goodNext d = true := commaSafeS_head_not_comma _ h d t rfl
        have hg3 : isWs d = false ∧ ¬ d = cRBrace ∧ ¬ d = cRBrack := by
          simpa [goodNext, Bool.and_eq_true, Bool.not_eq_true',
            decide_eq_true_eq, and_assoc] using hg
        have hskip : skipWs ((d :: t) ++ [cComma, cRBrace]) =
            d :: (t ++ [cComma, cRBrace]) := by
          rw [List.cons_append]
          exact skipWs_cons_of_not_ws d _ hg3.1
        rw [List.cons_append]
        simp only [removeTrailingCommasAux, if_pos rfl, hskip]
        have ih2 : removeTrailingCommasAux fuel (d :: (t ++ [cComma, cRBrace])) =
            d :: (t ++ [cRBrace]) := by
          rw [← List.cons_append, ← List.cons_append]
          exact ih
        simp [hg3.2.1, hg3.2.2, ih2]
    · rw [List.cons_append]
      simp only [removeTrailingCommasAux, hc, if_false]
      rw [ih, List.cons_append]

theorem digitOut_ofNat (d : Nat) (h : d < 10) :
    digitOut (Char.ofNat (48 + d)) = true := by
  interval_cases d <;> decide

theorem natDigitsAux_digitOut : ∀ (fuel n : Nat), ∀ c ∈ natDigitsAux fuel n,
    digitOut c = true
  | 0, n => by simp [natDigitsAux]
  | fuel + 1, n => by
    unfold natDigitsAux
    by_cases h10 : n < 10
    · simp only [h10, if_true, List.mem_singleton]
      intro c hc
      subst hc
      exact digitOut_ofNat n h10
    · simp only [h10, if_false, List.mem_append, List.mem_singleton]
      intro c hc
      rcases hc with hc | hc
      · exact natDigitsAux_digitOut fuel (n / 10) c hc
      · subst hc
        exact digitOut_ofNat (n % 10) (by omega)

theorem natDigitsAux_ne_nil (fuel n : Nat) :
    natDigitsAux (fuel + 1) n ≠ [] := by
  unfold natDigitsAux
  by_cases h10 : n < 10 <;> simp [h10]

theorem natDigits_ne_nil (n : Nat) : natDigits n ≠ [] :=
  natDigitsAux_ne_nil n n

/-- The most significant digit of a positive numeral is not `0`. -/
theorem natDigitsAux_headI : ∀ (fuel n : Nat), 1 ≤ n → n < fuel →
    (natDigitsAux fuel n).headI ≠ Char.ofNat 48
  | 0, n => by intro _ hf; exact absurd hf (by omega)
  | fuel + 1, n => by
    intro h1 hf
    unfold natDigitsAux
    by_cases h10 : n < 10
    · simp only [h10, if_true, List.headI]
      interval_cases n <;> decide
    · simp only [h10, if_false]
      have h1' : 1 ≤ n / 10 := by omega
      have hf' : n / 10 < fuel := by omega
      have ih := natDigitsAux_headI fuel (n / 10) h1' hf'
      have hne : natDigitsAux fuel (n / 10) ≠ [] := by
        match fuel, hf' with
        | 0, hf' => exact absurd hf' (by omega)
        | g + 1, _ => exact natDigitsAux_ne_nil g (n / 10)
      rcases List.exists_cons_of_ne_nil hne with ⟨a, t, ha⟩
      rw [ha]
      rw [ha] at ih
      simpa using ih

theorem digitOut_fields (c : Char) (h : digitOut c = true) :
    isDigit c = true ∧ goodNext c = true ∧ ¬ c = cComma ∧ ¬ c = cMinus ∧
    ¬ c = cLBrace ∧ ¬ c = cLBrack ∧ ¬ c = cQuote ∧ ¬ c = Char.ofNat 116 ∧
    ¬ c = Char.ofNat 102 ∧ ¬ c = Char.ofNat 110 := by
  simp only [digitOut, Bool.and_eq_true, decide_eq_true_eq] at h
  tauto

theorem plainChar_fields (c : Char) (h : plainChar c = true) :
    32 ≤ c.toNat ∧ isWs c = false ∧ ¬ c = cQuote ∧ ¬ c = cBackslash ∧
    ¬ c = cBacktick ∧ ¬ c = cApos ∧ ¬ c = cSlash ∧ ¬ c = cLBrace ∧
    ¬ c = cRBrace ∧ ¬ c = cRBrack ∧ ¬ c = cComma := by
  simp only [plainChar, Bool.and_eq_true, decide_eq_true_eq,
    Bool.not_eq_true'] at h
  tauto

theorem serializeInt_no_comma (n : Int) : ∀ c ∈ serializeInt n,
    ¬ c = cComma := by
  intro c hc
  unfold serializeInt at hc
  split at hc
  · rcases List.mem_cons.mp hc with hc | hc
    · subst hc; decide
    · exact (digitOut_fields c (natDigitsAux_digitOut _ _ c hc)).2.2.1
  · exact (digitOut_fields c (natDigitsAux_digitOut _ _ c hc)).2.2.1

/-- Every serialized value starts with a character that may legally follow a
comma (not whitespace, not a closer). -/
theorem serialize_head_good : ∀ (v : Json),
    ∃ c t, serialize v = c :: t ∧ goodNext c = true
  | .null => ⟨Char.ofNat 110, ("ull").data, by decide, by decide⟩
  | .bool true => ⟨Char.ofNat 116, ("rue").data, by decide, by decide⟩
  | .bool false => ⟨Char.ofNat 102, ("alse").data, by decide, by decide⟩
  | .num n => by
    by_cases hn : n < 0
    · exact ⟨cMinus, natDigits (-n).toNat,
        by simp [serialize, serializeInt, hn], by decide⟩
    · obtain ⟨c, t, hct⟩ := List.exists_cons_of_ne_nil (natDigits_ne_nil n.toNat)
      have hmem : c ∈ natDigits n.toNat := hct ▸ List.mem_cons_self c t
      exact ⟨c, t, by simp [serialize, serializeInt, hn, hct],
        (digitOut_fields c (natDigitsAux_digitOut _ _ c hmem)).2.1⟩
  | .str s => ⟨cQuote, s ++ [cQuote], by simp [serialize], by decide⟩
  | .arr a => ⟨cLBrack, serializeArr a ++ [cRBrack], by simp [serialize], by decide⟩
  | .obj o => ⟨cLBrace, serializeObj o ++ [cRBrace], by simp [serialize], by decide⟩

theorem serializeArr_cons_eq (w : Json) : ∀ (tail : JsonArr),
    ∃ R, serializeArr (.cons w tail) = serialize w ++ R
  | .nil => ⟨[], by simp [serializeArr]⟩
  | .cons x r => ⟨[cComma] ++ serializeArr (.cons x r), by simp [serializeArr]⟩

theorem serializeObj_cons_eq (k2 : List Char) (v2 : Json) : ∀ (rest : JsonObj),
    ∃ R, serializeObj (.cons k2 v2 rest) = cQuote :: R
  | .nil => ⟨k2 ++ [cQuote, cColon] ++ serialize v2, by simp [serializeObj]⟩
  | .cons x y r => ⟨k2 ++ [cQuote, cColon] ++ serialize v2 ++ [cComma] ++
      serializeObj (.cons x y r), by simp [serializeObj]⟩

theorem commaSafeS_of_plain (l : List Char) (h : ∀ c ∈ l, plainChar c = true) :
    commaSafeS l = true :=
  commaSafeS_of_no_comma l (fun c hc => (plainChar_fields c (h c hc)).2.2.2.2.2.2.2.2.2.2)

mutual

theorem serialize_commaSafeS : ∀ (v : Json), plainJson v = true →
    commaSafeS (serialize v) = true
  | .null, _ => by decide
  | .bool true, _ => by decide
  | .bool false, _ => by decide
  | .num n, _ => commaSafeS_of_no_comma _ (serializeInt_no_comma n)
  | .str s, hp => by
    refine commaSafeS_of_no_comma _ ?_
    intro c hc
    simp only [serialize, List.mem_append, List.mem_singleton] at hc
    rcases hc with (hc | hc) | hc
    · subst hc; decide
    · exact (plainChar_fields c
        (List.all_eq_true.mp (by simpa [plainJson] using hp) c hc)).2.2.2.2.2.2.2.2.2.2
    · subst hc; decide
  | .arr a, hp => by
    have heq : serialize (.arr a) = [cLBrack] ++ (serializeArr a ++ [cRBrack]) := by
      simp [serialize]
    rw [heq]
    have h1 := serializeArr_commaSafeS a (by simpa [plainJson] using hp)
    have h2 := commaSafeS_append (serializeArr a) [cRBrack] h1 (by decide)
    exact commaSafeS_append [cLBrack] (serializeArr a ++ [cRBrack]) (by decide) h2
  | .obj o, hp => by
    have heq : serialize (.obj o) = [cLBrace] ++ (serializeObj o ++ [cRBrace]) := by
      simp [serialize]
    rw [heq]
    have h1 := serializeObj_commaSafeS o (by simpa [plainJson] using hp)
    have h2 := commaSafeS_append (serializeObj o) [cRBrace] h1 (by decide)
    exact commaSafeS_append [cLBrace] (serializeObj o ++ [cRBrace]) (by decide) h2

theorem serializeArr_commaSafeS : ∀ (a : JsonArr), plainArr a = true →
    commaSafeS (serializeArr a) = true
  | .nil, _ => rfl
  | .cons v .nil, hp => by
    have hp' : (plainJson v && plainArr .nil) = true := hp
    have h := serialize_commaSafeS v (Bool.and_eq_true .. ▸ hp').1
    simpa [serializeArr] using h
  | .cons v (.cons w tail), hp => by
    have hp' : (plainJson v && plainArr (.cons w tail)) = true := hp
    rw [Bool.and_eq_true] at hp'
    have hv := serialize_commaSafeS v hp'.1
    have hY := serializeArr_commaSafeS (.cons w tail) hp'.2
    obtain ⟨c, t, hct, hg⟩ := serialize_head_good w
    obtain ⟨R, hR⟩ := serializeArr_cons_eq w tail
    have hshape : serializeArr (.cons w tail) = c :: (t ++ R) := by
      rw [hR, hct, List.cons_append]
    have hm : commaSafeS (cComma :: serializeArr (.cons w tail)) = true := by
      rw [hshape]
      show ((if cComma = cComma then goodNext c else true) &&
        commaSafeS (c :: (t ++ R))) = true
      rw [if_pos rfl, hg, Bool.true_and, ← hshape]
      exact hY
    have hres := commaSafeS_append (serialize v)
      (cComma :: serializeArr (.cons w tail)) hv hm
    have heq : serializeArr (.cons v (.cons w tail)) =
        serialize v ++ [cComma] ++ serializeArr (.cons w tail) := by
      simp [serializeArr]
    rw [heq, List.append_assoc]
    simpa using hres

theorem serializeObj_commaSafeS : ∀ (o : JsonObj), plainObj o = true →
    commaSafeS (serializeObj o) = true
  | .nil, _ => rfl
  | .cons k v .nil, hp => by
    have hp' : (k.all plainChar && plainJson v &&
        !(JsonObj.hasKey k JsonObj.nil) && plainObj .nil) = true := hp
    simp only [Bool.and_eq_true] at hp'
    have hv := serialize_commaSafeS v hp'.1.1.2
    have hk := commaSafeS_of_plain k (List.all_eq_true.mp hp'.1.1.1)
    have h1 : commaSafeS ([cQuote, cColon] ++ serialize v) = true :=
      commaSafeS_append _ _ (by decide) hv
    have h2 : commaSafeS (k ++ ([cQuote, cColon] ++ serialize v)) = true :=
      commaSafeS_append _ _ hk h1
    have h3 : commaSafeS ([cQuote] ++ (k ++ ([cQuote, cColon] ++ serialize v))) = true :=
      commaSafeS_append _ _ (by decide) h2
    have heq : serializeObj (.cons k v .nil) =
        [cQuote] ++ k ++ [cQuote, cColon] ++ serialize v := by
      simp [serializeObj]
    rw [heq]
    simpa [List.append_assoc] using h3
  | .cons k v (.cons k2 v2 rest), hp => by
    have hp' : (k.all plainChar && plainJson v &&
        !(JsonObj.hasKey k (.cons k2 v2 rest)) &&
        plainObj (.cons k2 v2 rest)) = true := hp
    simp only [Bool.and_eq_true] at hp'
    have hv := serialize_commaSafeS v hp'.1.1.2
    have hk := commaSafeS_of_plain k (List.all_eq_true.mp hp'.1.1.1)
    have hT := serializeObj_commaSafeS (.cons k2 v2 rest) hp'.2
    obtain ⟨R, hR⟩ := serializeObj_cons_eq k2 v2 rest
    have hm : commaSafeS (cComma :: serializeObj (.cons k2 v2 rest)) = true := by
      rw [hR]
      show ((if cComma = cComma then goodNext cQuote else true) &&
        commaSafeS (cQuote :: R)) = true
      rw [if_pos rfl, ← hR]
      simpa [goodNext, cQuote, cRBrace, cRBrack, isWs] using hT
    have h1 : commaSafeS (serialize v ++ (cComma :: serializeObj (.cons k2 v2 rest))) = true :=
      commaSafeS_append _ _ hv hm
    have h2 : commaSafeS (k ++ ([cQuote, cColon] ++
        (serialize v ++ (cComma :: serializeObj (.cons k2 v2 rest))))) = true :=
      commaSafeS_append _ _ hk (commaSafeS_append _ _ (by decide) h1)
    have h3 := commaSafeS_append [cQuote] _ (by decide) h2
    have heq : serializeObj (.cons k v (.cons k2 v2 rest)) =
        [cQuote] ++ k ++ [cQuote, cColon] ++ serialize v ++ [cComma] ++
          serializeObj (.cons k2 v2 rest) := by
      simp [serializeObj]
    rw [heq]
    simpa [List.append_assoc] using h3

end

theorem charOutOk_fields (c : Char) (h : charOutOk c = true) :
    32 ≤ c.toNat ∧ isWs c = false ∧ ¬ c = cBacktick ∧ ¬ c = cApos ∧
    ¬ c = cSlash := by
  simp only [charOutOk, Bool.and_eq_true, decide_eq_true_eq,
    Bool.not_eq_true'] at h
  tauto

theorem removeControl_id (l : List Char) (h : ∀ c ∈ l, 32 ≤ c.toNat) :
    removeControl l = l :=
  List.filter_eq_self.mpr (fun c hc => decide_eq_true (h c hc))

theorem fixQuoteKeysAux_id : ∀ (fuel : Nat) (l : List Char),
    (∀ c ∈ l, ¬ c = cApos) → fixQuoteKeysAux fuel l = l
  | 0, l => by intro _; rfl
  | fuel + 1, [] => by intro _; rfl
  | fuel + 1, c :: rest => by
    intro h
    have hc : ¬ c = cApos := h c (List.mem_cons_self c rest)
    have ih := fixQuoteKeysAux_id fuel rest
      (fun x hx => h x (List.mem_cons_of_mem c hx))
    simp only [fixQuoteKeysAux, hc, if_false, ih]

theorem fixQuoteValsAux_id : ∀ (fuel : Nat) (l : List Char),
    (∀ c ∈ l, ¬ c = cApos) → fixQuoteValsAux fuel l = l
  | 0, l => by intro _; rfl
  | fuel + 1, [] => by intro _; rfl
  | fuel + 1, c :: rest => by
    intro h
    have ih := fixQuoteValsAux_id fuel rest
      (fun x hx => h x (List.mem_cons_of_mem c hx))
    by_cases hc : c = cColon
    · subst hc
      cases hsw : skipWs rest with
      | nil => simp [fixQuoteValsAux, hsw, ih]
      | cons a rest2 =>
        have ha : ¬ a = cApos :=
          h a (List.mem_cons_of_mem cColon (mem_of_skipWs rest a rest2 hsw))
        simp [fixQuoteValsAux, hsw, ha, ih]
    · simp only [fixQuoteValsAux, hc, if_false, ih]

theorem removeLineCommentsAux_id : ∀ (fuel : Nat) (l : List Char),
    (∀ c ∈ l, ¬ c = cSlash) → removeLineCommentsAux fuel l = l
  | 0, l => by intro _; rfl
  | fuel + 1, [] => by intro _; rfl
  | fuel + 1, [c] => by intro _; rfl
  | fuel + 1, c :: d :: rest2 => by
    intro h
    have hc : ¬ c = cSlash := h c (List.mem_cons_self c _)
    have ih := removeLineCommentsAux_id fuel (d :: rest2)
      (fun x hx => h x (List.mem_cons_of_mem c hx))
    have hcc : (c = cSlash && d = cSlash) = false := by
      simp [hc]
    simp only [removeLineCommentsAux, hcc, Bool.false_eq_true, if_false, ih]

theorem removeBlockCommentsAux_id : ∀ (fuel : Nat) (l : List Char),
    (∀ c ∈ l, ¬ c = cSlash) → removeBlockCommentsAux fuel l = l
  | 0, l => by intro _; rfl
  | fuel + 1, [] => by intro _; rfl
  | fuel + 1, [c] => by intro _; rfl
  | fuel + 1, c :: d :: rest2 => by
    intro h
    have hc : ¬ c = cSlash := h c (List.mem_cons_self c _)
    have ih := removeBlockCommentsAux_id fuel (d :: rest2)
      (fun x hx => h x (List.mem_cons_of_mem c hx))
    have hcc : (c = cSlash && d = cStar) = false := by
      simp [hc]
    simp only [removeBlockCommentsAux, hcc, Bool.false_eq_true, if_false, ih]

/-- `clean_json_text` fixes any comma-safe text of serializer-output
characters. -/
theorem clean_json_text_id (l : List Char)
    (hall : ∀ c ∈ l, charOutOk c = true) (hcs : commaSafeS l = true) :
    clean_json_text l = l := by
  have hge : ∀ c ∈ l, 32 ≤ c.toNat := fun c hc => (charOutOk_fields c (hall c hc)).1
  have hap : ∀ c ∈ l, ¬ c = cApos := fun c hc => (charOutOk_fields c (hall c hc)).2.2.2.1
  have hsl : ∀ c ∈ l, ¬ c = cSlash := fun c hc => (charOutOk_fields c (hall c hc)).2.2.2.2
  unfold clean_json_text
  rw [removeControl_id l hge]
  unfold removeTrailingCommas
  rw [removeTrailingCommasAux_id _ l hcs]
  unfold fixQuoteKeys
  rw [fixQuoteKeysAux_id _ l hap]
  unfold fixQuoteVals
  rw [fixQuoteValsAux_id _ l hap]
  unfold removeLineComments
  rw [removeLineCommentsAux_id _ l hsl]
  unfold removeBlockComments
  rw [removeBlockCommentsAux_id _ l hsl]

/-- All characters of the serialization of a plain object. -/
theorem serializeObjFull_charOk (o : JsonObj) (hp : plainObj o = true) :
    ∀ c ∈ serialize (.obj o), charOutOk c = true :=
  serialize_charOk (.obj o) (by simpa [plainJson] using hp)

/-- Cleaning the extracted fenced group (the serialization with a trailing
comma before the final brace) yields exactly the bare serialization. -/
theorem clean_fenced_group (o : JsonObj) (hp : plainObj o = true) :
    clean_json_text (cLBrace :: (serializeObj o ++ [cComma, cRBrace])) =
      serialize (.obj o) := by
  have hobj := serializeObj_charOk o hp
  have hmem : ∀ c ∈ cLBrace :: (serializeObj o ++ [cComma, cRBrace]),
      32 ≤ c.toNat := by
    intro c hc
    rcases List.mem_cons.mp hc with hc | hc
    · subst hc; decide
    · rcases List.mem_append.mp hc with hc | hc
      · exact (charOutOk_fields c (hobj c hc)).1
      · rcases List.mem_cons.mp hc with hc | hc
        · subst hc; decide
        · rcases List.mem_singleton.mp hc with hc; subst hc; decide
  have hinner : commaSafeS (cLBrace :: serializeObj o) = true :=
    commaSafeS_append [cLBrace] (serializeObj o) (by decide)
      (serializeObj_commaSafeS o hp)
  have hbare : ∀ c ∈ serialize (.obj o), charOutOk c = true :=
    serializeObjFull_charOk o hp
  have hcsbare : commaSafeS (serialize (.obj o)) = true :=
    serialize_commaSafeS (.obj o) (by simpa [plainJson] using hp)
  unfold clean_json_text
  rw [removeControl_id _ hmem]
  have hrt : removeTrailingCommas (cLBrace :: (serializeObj o ++ [cComma, cRBrace])) =
      serialize (.obj o) := by
    unfold removeTrailingCommas
    have hsplit : cLBrace :: (serializeObj o ++ [cComma, cRBrace]) =
        (cLBrace :: serializeObj o) ++ [cComma, cRBrace] := by
      simp
    rw [hsplit]
    have hlen : (cLBrace :: serializeObj o).length <
        ((cLBrace :: serializeObj o) ++ [cComma, cRBrace]).length + 1 := by
      simp
    rw [removeTrailingCommasAux_comma_close _ _ hlen hinner]
    have : serialize (.obj o) = [cLBrace] ++ serializeObj o ++ [cRBrace] := by
      simp [serialize]
    rw [this]
    simp
  rw [hrt]
  have hap : ∀ c ∈ serialize (.obj o), ¬ c = cApos :=
    fun c hc => (charOutOk_fields c (hbare c hc)).2.2.2.1
  have hsl : ∀ c ∈ serialize (.obj o), ¬ c = cSlash :=
    fun c hc => (charOutOk_fields c (hbare c hc)).2.2.2.2
  unfold fixQuoteKeys
  rw [fixQuoteKeysAux_id _ _ hap]
  unfold fixQuoteVals
  rw [fixQuoteValsAux_id _ _ hap]
  unfold removeLineComments
  rw [removeLineCommentsAux_id _ _ hsl]
  unfold removeBlockComments
  rw [removeBlockCommentsAux_id _ _ hsl]

theorem parseStringBody_roundtrip : ∀ (sl : List Char),
    (∀ c ∈ sl, plainChar c = true) → ∀ rest,
    parseStringBody (sl ++ cQuote :: rest) = some (sl, rest)
  | [], _ => by
    intro rest
    rw [List.nil_append]
    unfold parseStringBody
    simp
  | c :: sl2, h => by
    intro rest
    have hf := plainChar_fields c (h c (List.mem_cons_self c sl2))
    have ih := parseStringBody_roundtrip sl2
      (fun x hx => h x (List.mem_cons_of_mem c hx)) rest
    have hq : ¬ c = cQuote := hf.2.2.1
    have hb : ¬ c = cBackslash := hf.2.2.2.1
    have hlt : ¬ c.toNat < 32 := by omega
    rw [List.cons_append]
    unfold parseStringBody
    simp [hq, hb, hlt, ih]

theorem takeDigits_append : ∀ (ds : List Char),
    (∀ c ∈ ds, isDigit c = true) → ∀ rest, restOk rest = true →
    takeDigits (ds ++ rest) = (ds, rest)
  | [], _ => by
    intro rest hr
    match rest, hr with
    | [], _ => rfl
    | c :: r, hr =>
      have hd : isDigit c = false := by simpa [restOk] using hr
      show takeDigits (c :: r) = ([], c :: r)
      simp [takeDigits, hd]
  | c :: ds2, h => by
    intro rest hr
    have hd : isDigit c = true := h c (List.mem_cons_self c ds2)
    have ih := takeDigits_append ds2
      (fun x hx => h x (List.mem_cons_of_mem c hx)) rest hr
    rw [List.cons_append]
    simp [takeDigits, hd, ih]

theorem natDigits_all_digits (m : Nat) : ∀ c ∈ natDigits m, isDigit c = true :=
  fun c hc => (digitOut_fields c (natDigitsAux_digitOut _ _ c hc)).1

/-- The leading-zero guard of `parseNumber` never fires on a numeral the
serializer printed. -/
theorem natDigits_guard (m : Nat) :
    ((natDigits m).length > 1 && (natDigits m).headI = Char.ofNat 48) = false := by
  by_cases hl : (natDigits m).length > 1
  · rcases Nat.eq_zero_or_pos m with hm | hm
    · subst hm
      exact absurd hl (by decide)
    · have hh := natDigitsAux_headI (m + 1) m hm (by omega)
      simp only [natDigits] at hh ⊢
      simp [hh]
  · simp [hl]

theorem parseNumber_serializeInt (n : Int) (rest : List Char)
    (hr : restOk rest = true) :
    parseNumber (serializeInt n ++ rest) = some (n, rest) := by
  by_cases hn : n < 0
  · obtain ⟨d, ds, hnd⟩ := List.exists_cons_of_ne_nil (natDigits_ne_nil (-n).toNat)
    have htd := takeDigits_append (natDigits (-n).toNat)
      (natDigits_all_digits _) rest hr
    have hguard := natDigits_guard (-n).toNat
    have hval := digitsToNat_natDigits (-n).toNat
    rw [hnd] at htd hguard hval
    have hsh : serializeInt n ++ rest =
        cMinus :: (natDigits (-n).toNat ++ rest) := by
      simp [serializeInt, hn]
    rw [List.cons_append] at htd
    have hguard3 : 0 < ds.length → ¬ d = Char.ofNat 48 := by
      intro hds hd
      have h1 : (d :: ds).length > 1 := by simp; omega
      have h2 : (decide ((d :: ds).length > 1) &&
          decide ((d :: ds).headI = Char.ofNat 48)) = true := by
        simp [hd]
        omega
      rw [hguard] at h2
      cases h2
    have hcast2 : -((digitsToNat (d :: ds) : Int)) = n := by
      rw [hval]; omega
    rw [hsh, hnd]
    simp [parseNumber, htd, hcast2]
    exact hguard3
  · obtain ⟨d, ds, hnd⟩ := List.exists_cons_of_ne_nil (natDigits_ne_nil n.toNat)
    have hmem : d ∈ natDigits n.toNat := hnd ▸ List.mem_cons_self d ds
    have hdm : ¬ d = cMinus :=
      (digitOut_fields d (natDigitsAux_digitOut _ _ d hmem)).2.2.2.1
    have htd := takeDigits_append (natDigits n.toNat)
      (natDigits_all_digits _) rest hr
    have hguard := natDigits_guard n.toNat
    have hval := digitsToNat_natDigits n.toNat
    rw [hnd] at htd hguard hval
    have hsh : serializeInt n ++ rest = natDigits n.toNat ++ rest := by
      simp [serializeInt, hn]
    rw [List.cons_append] at htd
    have hguard3 : 0 < ds.length → ¬ d = Char.ofNat 48 := by
      intro hds hd
      have h1 : (d :: ds).length > 1 := by simp; omega
      have h2 : (decide ((d :: ds).length > 1) &&
          decide ((d :: ds).headI = Char.ofNat 48)) = true := by
        simp [hd]
        omega
      rw [hguard] at h2
      cases h2
    have hcast2 : ((digitsToNat (d :: ds) : Int)) = n := by
      rw [hval]; omega
    rw [hsh, hnd]
    simp [parseNumber, hdm, htd, hcast2]
    exact hguard3

theorem jsize_pos : ∀ (v : Json), 1 ≤ jsize v
  | .null => le_refl 1
  | .bool _ => le_refl 1
  | .num _ => le_refl 1
  | .str _ => le_refl 1
  | .arr a => by simp [jsize]
  | .obj o => by simp [jsize]

theorem serializeInt_length_pos (n : Int) : 1 ≤ (serializeInt n).length := by
  unfold serializeInt
  split
  · simp
  · have := natDigits_ne_nil n.toNat
    exact List.length_pos.mpr this

mutual

theorem jsize_le_length : ∀ (v : Json), jsize v ≤ (serialize v).length
  | .null => by simp [jsize, serialize]
  | .bool true => by simp [jsize, serialize]
  | .bool false => by simp [jsize, serialize]
  | .num n => by
    have := serializeInt_length_pos n
    simp only [jsize, serialize]
    omega
  | .str s => by simp [jsize, serialize]
  | .arr a => by
    have := asize_le_length a
    simp only [jsize, serialize, List.length_append, List.length_cons,
      List.length_singleton]
    omega
  | .obj o => by
    have := osize_le_length o
    simp only [jsize, serialize, List.length_append, List.length_cons,
      List.length_singleton]
    omega

theorem asize_le_length : ∀ (a : JsonArr),
    asize a ≤ (serializeArr a).length + 1
  | .nil => by simp [asize, serializeArr]
  | .cons v .nil => by
    have h1 := jsize_le_length v
    simp only [asize, serializeArr]
    omega
  | .cons v (.cons w t) => by
    have h1 := jsize_le_length v
    have h2 := asize_le_length (.cons w t)
    have hlen : (serializeArr (.cons v (.cons w t))).length =
        (serialize v).length + 1 + (serializeArr (.cons w t)).length := by
      simp only [serializeArr, List.length_append, List.length_singleton]
    have hsz : asize (.cons v (.cons w t)) =
        max (jsize v) (asize (.cons w t)) + 1 := by
      simp [asize]
    rw [hsz, hlen]
    omega

theorem osize_le_length : ∀ (o : JsonObj),
    osize o ≤ (serializeObj o).length + 1
  | .nil => by simp [osize, serializeObj]
  | .cons k v .nil => by
    have h1 := jsize_le_length v
    simp only [osize, serializeObj, List.length_append, List.length_cons,
      List.length_singleton]
    omega
  | .cons k v (.cons k2 v2 r) => by
    have h1 := jsize_le_length v
    have h2 := osize_le_length (.cons k2 v2 r)
    have hlen : (serializeObj (.cons k v (.cons k2 v2 r))).length =
        1 + k.length + 2 + (serialize v).length + 1 +
          (serializeObj (.cons k2 v2 r)).length := by
      simp [serializeObj]
      omega
    have hsz : osize (.cons k v (.cons k2 v2 r)) =
        max (jsize v) (osize (.cons k2 v2 r)) + 1 := by
      simp [osize]
    rw [hsz, hlen]
    omega

end

theorem goodNext_not_ws (c : Char) (h : goodNext c = true) : isWs c = false := by
  simp only [goodNext, Bool.and_eq_true, Bool.not_eq_true'] at h
  exact h.1.1

theorem goodNext_ne_rbrack (c : Char) (h : goodNext c = true) :
    ¬ c = cRBrack := by
  simp only [goodNext, Bool.and_eq_true, decide_eq_true_eq] at h
  exact h.2

theorem goodNext_ne_rbrace (c : Char) (h : goodNext c = true) :
    ¬ c = cRBrace := by
  simp only [goodNext, Bool.and_eq_true, decide_eq_true_eq] at h
  exact h.1.2

theorem consKey_of_not_hasKey (k : List Char) (v : Json) (o : JsonObj)
    (h : o.hasKey k = false) : o.consKey k v = .cons k v o := by
  unfold JsonObj.consKey
  unfold JsonObj.hasKey at h
  cases hg : o.get k with
  | none => simp [hg]
  | some w => rw [hg] at h; simp at h

mutual

theorem parseVal_serialize : ∀ (v : Json), plainJson v = true →
    ∀ fuel, jsize v ≤ fuel → ∀ rest, restOk rest = true →
    parseVal fuel (serialize v ++ rest) = some (v, rest)
  | .null, _ => by
    intro fuel hf rest hr
    match fuel, hf with
    | 0, hf => exact absurd hf (by have := jsize_pos .null; omega)
    | f + 1, _ =>
      have hs : serialize .null ++ rest = Char.ofNat 110 :: Char.ofNat 117 ::
          Char.ofNat 108 :: Char.ofNat 108 :: rest := by
        have h0 : serialize .null = [Char.ofNat 110, Char.ofNat 117,
            Char.ofNat 108, Char.ofNat 108] := by decide
        rw [h0]; rfl
      have e1 : ¬ (Char.ofNat 110 = cLBrace) := by decide
      have e2 : ¬ (Char.ofNat 110 = cLBrack) := by decide
      have e3 : ¬ (Char.ofNat 110 = cQuote) := by decide
      have e4 : ¬ (Char.ofNat 110 = Char.ofNat 116) := by decide
      have e5 : ¬ (Char.ofNat 110 = Char.ofNat 102) := by decide
      rw [hs]
      simp only [parseVal]
      rw [show skipWs (Char.ofNat 110 :: Char.ofNat 117 :: Char.ofNat 108 ::
          Char.ofNat 108 :: rest) = Char.ofNat 110 :: Char.ofNat 117 ::
          Char.ofNat 108 :: Char.ofNat 108 :: rest from
        skipWs_cons_of_not_ws _ _ (by decide)]
      simp [e1, e2, e3, e4, e5]
  | .bool true, _ => by
    intro fuel hf rest hr
    match fuel, hf with
    | 0, hf => exact absurd hf (by have := jsize_pos (.bool true); omega)
    | f + 1, _ =>
      have hs : serialize (.bool true) ++ rest = Char.ofNat 116 ::
          Char.ofNat 114 :: Char.ofNat 117 :: Char.ofNat 101 :: rest := by
        have h0 : serialize (.bool true) = [Char.ofNat 116, Char.ofNat 114,
            Char.ofNat 117, Char.ofNat 101] := by decide
        rw [h0]; rfl
      have e1 : ¬ (Char.ofNat 116 = cLBrace) := by decide
      have e2 : ¬ (Char.ofNat 116 = cLBrack) := by decide
      have e3 : ¬ (Char.ofNat 116 = cQuote) := by decide
      rw [hs]
      simp only [parseVal]
      rw [show skipWs (Char.ofNat 116 :: Char.ofNat 114 :: Char.ofNat 117 ::
          Char.ofNat 101 :: rest) = Char.ofNat 116 :: Char.ofNat 114 ::
          Char.ofNat 117 :: Char.ofNat 101 :: rest from
        skipWs_cons_of_not_ws _ _ (by decide)]
      simp [e1, e2, e3]
  | .bool false, _ => by
    intro fuel hf rest hr
    match fuel, hf with
    | 0, hf => exact absurd hf (by have := jsize_pos (.bool false); omega)
    | f + 1, _ =>
      have hs : serialize (.bool false) ++ rest = Char.ofNat 102 ::
          Char.ofNat 97 :: Char.ofNat 108 :: Char.ofNat 115 ::
          Char.ofNat 101 :: rest := by
        have h0 : serialize (.bool false) = [Char.ofNat 102, Char.ofNat 97,
            Char.ofNat 108, Char.ofNat 115, Char.ofNat 101] := by decide
        rw [h0]; rfl
      have e1 : ¬ (Char.ofNat 102 = cLBrace) := by decide
      have e2 : ¬ (Char.ofNat 102 = cLBrack) := by decide
      have e3 : ¬ (Char.ofNat 102 = cQuote) := by decide
      have e4 : ¬ (Char.ofNat 102 = Char.ofNat 116) := by decide
      rw [hs]
      simp only [parseVal]
      rw [show skipWs (Char.ofNat 102 :: Char.ofNat 97 :: Char.ofNat 108 ::
          Char.ofNat 115 :: Char.ofNat 101 :: rest) = Char.ofNat 102 ::
          Char.ofNat 97 :: Char.ofNat 108 :: Char.ofNat 115 ::
          Char.ofNat 101 :: rest from
        skipWs_cons_of_not_ws _ _ (by decide)]
      simp [e1, e2, e3, e4]
  | .num n, _ => by
    intro fuel hf rest hr
    match fuel, hf with
    | 0, hf => exact absurd hf (by have := jsize_pos (.num n); omega)
    | f + 1, _ =>
      by_cases hn : n < 0
      · have hs : serialize (.num n) ++ rest =
            cMinus :: (natDigits (-n).toNat ++ rest) := by
          simp [serialize, serializeInt, hn]
        have hpn : parseNumber (cMinus :: (natDigits (-n).toNat ++ rest)) =
            some (n, rest) := by
          have h1 := parseNumber_serializeInt n rest hr
          rw [show serializeInt n ++ rest =
              cMinus :: (natDigits (-n).toNat ++ rest) from by
            simp [serializeInt, hn]] at h1
          exact h1
        have e1 : ¬ (cMinus = cLBrace) := by decide
        have e2 : ¬ (cMinus = cLBrack) := by decide
        have e3 : ¬ (cMinus = cQuote) := by decide
        have e4 : ¬ (cMinus = Char.ofNat 116) := by decide
        have e5 : ¬ (cMinus = Char.ofNat 102) := by decide
        have e6 : ¬ (cMinus = Char.ofNat 110) := by decide
        rw [hs]
        simp only [parseVal]
        rw [show skipWs (cMinus :: (natDigits (-n).toNat ++ rest)) =
            cMinus :: (natDigits (-n).toNat ++ rest) from
          skipWs_cons_of_not_ws _ _ (by decide)]
        simp [e1, e2, e3, e4, e5, e6, hpn]
      · obtain ⟨d, ds, hnd⟩ :=
          List.exists_cons_of_ne_nil (natDigits_ne_nil n.toNat)
        have hmem : d ∈ natDigits n.toNat := hnd ▸ List.mem_cons_self d ds
        obtain ⟨hdig, hgn, hcom, hmin, hbr, hbk, hqt, ht116, hf102, hn110⟩ :=
          digitOut_fields d (natDigitsAux_digitOut _ _ d hmem)
        have hs : serialize (.num n) ++ rest = d :: (ds ++ rest) := by
          simp [serialize, serializeInt, hn, hnd]
        have hpn : parseNumber (d :: (ds ++ rest)) = some (n, rest) := by
          have h1 := parseNumber_serializeInt n rest hr
          rw [show serializeInt n ++ rest = d :: (ds ++ rest) from by
            simp [serializeInt, hn, hnd]] at h1
          exact h1
        rw [hs]
        simp only [parseVal]
        rw [show skipWs (d :: (ds ++ rest)) = d :: (ds ++ rest) from
          skipWs_cons_of_not_ws _ _ (goodNext_not_ws d hgn)]
        simp [hbr, hbk, hqt, ht116, hf102, hn110, hdig, hpn]
  | .str sl, hp => by
    intro fuel hf rest hr
    match fuel, hf with
    | 0, hf => exact absurd hf (by have := jsize_pos (.str sl); omega)
    | f + 1, _ =>
      have hs : serialize (.str sl) ++ rest =
          cQuote :: (sl ++ (cQuote :: rest)) := by
        simp [serialize]
      have hsb := parseStringBody_roundtrip sl
        (List.all_eq_true.mp (by simpa [plainJson] using hp)) rest
      have e1 : ¬ (cQuote = cLBrace) := by decide
      have e2 : ¬ (cQuote = cLBrack) := by decide
      rw [hs]
      simp only [parseVal]
      rw [show skipWs (cQuote :: (sl ++ (cQuote :: rest))) =
          cQuote :: (sl ++ (cQuote :: rest)) from
        skipWs_cons_of_not_ws _ _ (by decide)]
      simp [e1, e2, hsb]
  | .arr .nil, _ => by
    intro fuel hf rest hr
    match fuel, hf with
    | 0, hf => exact absurd hf (by have := jsize_pos (.arr .nil); omega)
    | f + 1, _ =>
      have hs : serialize (.arr .nil) ++ rest = cLBrack :: cRBrack :: rest := by
        have h0 : serialize (.arr .nil) = [cLBrack, cRBrack] := by decide
        rw [h0]; rfl
      have e1 : ¬ (cLBrack = cLBrace) := by decide
      have hsk : skipWs (cRBrack :: rest) = cRBrack :: rest :=
        skipWs_cons_of_not_ws _ _ (by decide)
      rw [hs]
      simp only [parseVal]
      rw [show skipWs (cLBrack :: cRBrack :: rest) =
          cLBrack :: cRBrack :: rest from skipWs_cons_of_not_ws _ _ (by decide)]
      simp [e1, hsk]
  | .arr (.cons w t), hp => by
    intro fuel hf rest hr
    match fuel, hf with
    | 0, hf => exact absurd hf (by have := jsize_pos (.arr (.cons w t)); omega)
    | f + 1, hf =>
      have hpa : plainArr (.cons w t) = true := by simpa [plainJson] using hp
      obtain ⟨c0, t0, hct, hg⟩ := serialize_head_good w
      obtain ⟨R, hR⟩ := serializeArr_cons_eq w t
      have hs : serialize (.arr (.cons w t)) ++ rest =
          cLBrack :: (serializeArr (.cons w t) ++ (cRBrack :: rest)) := by
        simp [serialize, List.append_assoc]
      have harg : serializeArr (.cons w t) ++ (cRBrack :: rest) =
          c0 :: (t0 ++ (R ++ cRBrack :: rest)) := by
        rw [hR, hct]
        simp [List.append_assoc]
      have hskip : skipWs (c0 :: (t0 ++ (R ++ cRBrack :: rest))) =
          c0 :: (t0 ++ (R ++ cRBrack :: rest)) :=
        skipWs_cons_of_not_ws _ _ (goodNext_not_ws c0 hg)
      have hbound : asize (.cons w t) ≤ f := by
        simp only [jsize] at hf
        omega
      have htail := parseArrTail_serialize (.cons w t) hpa f hbound rest
        (fun h => nomatch h)
      have htail2 : parseArrTail f (c0 :: (t0 ++ (R ++ cRBrack :: rest))) =
          some (.cons w t, rest) := by
        rw [← harg]
        exact htail
      have e1 : ¬ (cLBrack = cLBrace) := by decide
      have hgr := goodNext_ne_rbrack c0 hg
      rw [hs]
      simp only [parseVal]
      rw [show skipWs (cLBrack :: (serializeArr (.cons w t) ++ (cRBrack :: rest))) =
          cLBrack :: (serializeArr (.cons w t) ++ (cRBrack :: rest)) from
        skipWs_cons_of_not_ws _ _ (by decide)]
      rw [harg]
      simp [e1, hskip, hgr, htail2]
  | .obj .nil, _ => by
    intro fuel hf rest hr
    match fuel, hf with
    | 0, hf => exact absurd hf (by have := jsize_pos (.obj .nil); omega)
    | f + 1, _ =>
      have hs : serialize (.obj .nil) ++ rest = cLBrace :: cRBrace :: rest := by
        have h0 : serialize (.obj .nil) = [cLBrace, cRBrace] := by decide
        rw [h0]; rfl
      have hsk : skipWs (cRBrace :: rest) = cRBrace :: rest :=
        skipWs_cons_of_not_ws _ _ (by decide)
      rw [hs]
      simp only [parseVal]
      rw [show skipWs (cLBrace :: cRBrace :: rest) =
          cLBrace :: cRBrace :: rest from skipWs_cons_of_not_ws _ _ (by decide)]
      simp [hsk]
  | .obj (.cons k v t), hp => by
    intro fuel hf rest hr
    match fuel, hf with
    | 0, hf => exact absurd hf (by have := jsize_pos (.obj (.cons k v t)); omega)
    | f + 1, hf =>
      have hpo : plainObj (.cons k v t) = true := by simpa [plainJson] using hp
      obtain ⟨R, hR⟩ := serializeObj_cons_eq k v t
      have hs : serialize (.obj (.cons k v t)) ++ rest =
          cLBrace :: (serializeObj (.cons k v t) ++ (cRBrace :: rest)) := by
        simp [serialize, List.append_assoc]
      have harg : serializeObj (.cons k v t) ++ (cRBrace :: rest) =
          cQuote :: (R ++ cRBrace :: rest) := by
        rw [hR]
        simp
      have hskip : skipWs (cQuote :: (R ++ cRBrace :: rest)) =
          cQuote :: (R ++ cRBrace :: rest) :=
        skipWs_cons_of_not_ws _ _ (by decide)
      have hbound : osize (.cons k v t) ≤ f := by
        simp only [jsize] at hf
        omega
      have htail := parseObjTail_serialize (.cons k v t) hpo f hbound rest
        (fun h => nomatch h)
      have htail2 : parseObjTail f (cQuote :: (R ++ cRBrace :: rest)) =
          some (.cons k v t, rest) := by
        rw [← harg]
        exact htail
      have e1 : ¬ (cQuote = cRBrace) := by decide
      rw [hs]
      simp only [parseVal]
      rw [show skipWs (cLBrace :: (serializeObj (.cons k v t) ++ (cRBrace :: rest))) =
          cLBrace :: (serializeObj (.cons k v t) ++ (cRBrace :: rest)) from
        skipWs_cons_of_not_ws _ _ (by decide)]
      rw [harg]
      simp [e1, hskip, htail2]

theorem parseArrTail_serialize : ∀ (a : JsonArr), plainArr a = true →
    ∀ fuel, asize a ≤ fuel → ∀ rest, a ≠ .nil →
    parseArrTail fuel (serializeArr a ++ (cRBrack :: rest)) = some (a, rest)
  | .nil, _ => by
    intro fuel hf rest hne
    exact absurd rfl hne
  | .cons v .nil, hp => by
    intro fuel hf rest _
    match fuel, hf with
    | 0, hf => exact absurd hf (by simp [asize])
    | f + 1, hf =>
      have hp' : (plainJson v && plainArr .nil) = true := hp
      rw [Bool.and_eq_true] at hp'
      have hs : serializeArr (.cons v .nil) ++ (cRBrack :: rest) =
          serialize v ++ (cRBrack :: rest) := by simp [serializeArr]
      have hbound : jsize v ≤ f := by
        simp [asize] at hf
        omega
      have hval := parseVal_serialize v hp'.1 f hbound (cRBrack :: rest)
        (by rfl)
      have hsk : skipWs (cRBrack :: rest) = cRBrack :: rest :=
        skipWs_cons_of_not_ws _ _ (by decide)
      have e1 : ¬ (cRBrack = cComma) := by decide
      rw [hs]
      simp only [parseArrTail]
      rw [hval]
      simp [hsk, e1]
  | .cons v (.cons w t2), hp => by
    intro fuel hf rest _
    match fuel, hf with
    | 0, hf => exact absurd hf (by simp [asize])
    | f + 1, hf =>
      have hp' : (plainJson v && plainArr (.cons w t2)) = true := hp
      rw [Bool.and_eq_true] at hp'
      have hs : serializeArr (.cons v (.cons w t2)) ++ (cRBrack :: rest) =
          serialize v ++
            (cComma :: (serializeArr (.cons w t2) ++ (cRBrack :: rest))) := by
        simp [serializeArr, List.append_assoc]
      have hbound : jsize v ≤ f := by
        simp [asize] at hf
        omega
      have hbound2 : asize (.cons w t2) ≤ f := by
        simp [asize] at hf ⊢
        omega
      have hval := parseVal_serialize v hp'.1 f hbound
        (cComma :: (serializeArr (.cons w t2) ++ (cRBrack :: rest))) (by rfl)
      have htail := parseArrTail_serialize (.cons w t2) hp'.2 f hbound2 rest
        (fun h => nomatch h)
      have hsk : skipWs (cComma ::
          (serializeArr (.cons w t2) ++ (cRBrack :: rest))) =
          cComma :: (serializeArr (.cons w t2) ++ (cRBrack :: rest)) :=
        skipWs_cons_of_not_ws _ _ (by decide)
      rw [hs]
      simp only [parseArrTail]
      rw [hval]
      simp [hsk, htail]

theorem parseObjTail_serialize : ∀ (o : JsonObj), plainObj o = true →
    ∀ fuel, osize o ≤ fuel → ∀ rest, o ≠ .nil →
    parseObjTail fuel (serializeObj o ++ (cRBrace :: rest)) = some (o, rest)
  | .nil, _ => by
    intro fuel hf rest hne
    exact absurd rfl hne
  | .cons k v .nil, hp => by
    intro fuel hf rest _
    match fuel, hf with
    | 0, hf => exact absurd hf (by simp [osize])
    | f + 1, hf =>
      have hp' : (k.all plainChar && plainJson v &&
          !(JsonObj.hasKey k JsonObj.nil) && plainObj .nil) = true := hp
      simp only [Bool.and_eq_true] at hp'
      have hkplain := List.all_eq_true.mp hp'.1.1.1
      have hs : serializeObj (.cons k v .nil) ++ (cRBrace :: rest) =
          cQuote :: (k ++ (cQuote ::
            (cColon :: (serialize v ++ (cRBrace :: rest))))) := by
        simp [serializeObj, List.append_assoc]
      have hsb := parseStringBody_roundtrip k hkplain
        (cColon :: (serialize v ++ (cRBrace :: rest)))
      have hbound : jsize v ≤ f := by
        simp [osize] at hf
        omega
      have hval := parseVal_serialize v hp'.1.1.2 f hbound
        (cRBrace :: rest) (by rfl)
      have hsk1 : skipWs (cColon :: (serialize v ++ (cRBrace :: rest))) =
          cColon :: (serialize v ++ (cRBrace :: rest)) :=
        skipWs_cons_of_not_ws _ _ (by decide)
      have hsk2 : skipWs (cRBrace :: rest) = cRBrace :: rest :=
        skipWs_cons_of_not_ws _ _ (by decide)
      have e1 : ¬ (cRBrace = cComma) := by decide
      rw [hs]
      simp only [parseObjTail]
      rw [show skipWs (cQuote :: (k ++ (cQuote ::
          (cColon :: (serialize v ++ (cRBrace :: rest)))))) =
          cQuote :: (k ++ (cQuote ::
            (cColon :: (serialize v ++ (cRBrace :: rest))))) from
        skipWs_cons_of_not_ws _ _ (by decide)]
      simp [hsb, hsk1, hval, hsk2, e1]
  | .cons k v (.cons k2 v2 r), hp => by
    intro fuel hf rest _
    match fuel, hf with
    | 0, hf => exact absurd hf (by simp [osize])
    | f + 1, hf =>
      have hp' : (k.all plainChar && plainJson v &&
          !(JsonObj.hasKey k (.cons k2 v2 r)) &&
          plainObj (.cons k2 v2 r)) = true := hp
      simp only [Bool.and_eq_true] at hp'
      have hkplain := List.all_eq_true.mp hp'.1.1.1
      have hs : serializeObj (.cons k v (.cons k2 v2 r)) ++ (cRBrace :: rest) =
          cQuote :: (k ++ (cQuote :: (cColon :: (serialize v ++ (cComma ::
            (serializeObj (.cons k2 v2 r) ++ (cRBrace :: rest))))))) := by
        simp [serializeObj, List.append_assoc]
      have hsb := parseStringBody_roundtrip k hkplain
        (cColon :: (serialize v ++ (cComma ::
          (serializeObj (.cons k2 v2 r) ++ (cRBrace :: rest)))))
      have hbound : jsize v ≤ f := by
        simp [osize] at hf
        omega
      have hbound2 : osize (.cons k2 v2 r) ≤ f := by
        simp [osize] at hf ⊢
        omega
      have hval := parseVal_serialize v hp'.1.1.2 f hbound
        (cComma :: (serializeObj (.cons k2 v2 r) ++ (cRBrace :: rest)))
        (by rfl)
      have hpo2 : plainObj (.cons k2 v2 r) = true := hp'.2
      have htail := parseObjTail_serialize (.cons k2 v2 r) hpo2 f hbound2 rest
        (fun h => nomatch h)
      have hnk : JsonObj.hasKey k (.cons k2 v2 r) = false := by
        have h2 := hp'.1.2
        simpa [Bool.not_eq_true'] using h2
      have hck := consKey_of_not_hasKey k v (.cons k2 v2 r) hnk
      have hsk1 : skipWs (cColon :: (serialize v ++ (cComma ::
          (serializeObj (.cons k2 v2 r) ++ (cRBrace :: rest))))) =
          cColon :: (serialize v ++ (cComma ::
            (serializeObj (.cons k2 v2 r) ++ (cRBrace :: rest)))) :=
        skipWs_cons_of_not_ws _ _ (by decide)
      have hsk2 : skipWs (cComma :: (serializeObj (.cons k2 v2 r) ++
          (cRBrace :: rest))) =
          cComma :: (serializeObj (.cons k2 v2 r) ++ (cRBrace :: rest)) :=
        skipWs_cons_of_not_ws _ _ (by decide)
      rw [hs]
      simp only [parseObjTail]
      rw [show skipWs (cQuote :: (k ++ (cQuote :: (cColon ::
          (serialize v ++ (cComma :: (serializeObj (.cons k2 v2 r) ++
            (cRBrace :: rest)))))))) =
          cQuote :: (k ++ (cQuote :: (cColon :: (serialize v ++ (cComma ::
            (serializeObj (.cons k2 v2 r) ++ (cRBrace :: rest))))))) from
        skipWs_cons_of_not_ws _ _ (by decide)]
      simp [hsb, hsk1, hval, hsk2, htail, hck]

end

/-- `json.loads` inverts the serializer on plain values. -/
theorem jsonLoads_serialize (v : Json) (hp : plainJson v = true) :
    jsonLoads (serialize v) = some v := by
  unfold jsonLoads
  have h1 := parseVal_serialize v hp ((serialize v).length + 1)
    (by have := jsize_le_length v; omega) [] (by rfl)
  rw [List.append_nil] at h1
  rw [h1]
  simp [skipWs]

theorem findFenced_none (u : Bool) : ∀ (l : List Char),
    (∀ c ∈ l, ¬ c = cBacktick) → findFenced u l = none
  | [] => by intro _; rfl
  | c :: rest => by
    intro h
    have hc : ¬ c = cBacktick := h c (List.mem_cons_self c rest)
    have ih := findFenced_none u rest
      (fun x hx => h x (List.mem_cons_of_mem c hx))
    simp only [findFenced, hc, if_false, ih]

theorem pyStrip_id (c d : Char) (t : List Char) (hc : pyWs c = false)
    (hd : pyWs d = false) : pyStrip (c :: (t ++ [d])) = c :: (t ++ [d]) := by
  unfold pyStrip
  rw [List.dropWhile_cons]
  simp only [hc, Bool.false_eq_true, if_false]
  rw [show (c :: (t ++ [d])).reverse = d :: (t.reverse ++ [c]) from by simp]
  rw [List.dropWhile_cons]
  simp only [hd, Bool.false_eq_true, if_false]
  simp

/-- The lazy `.*?\}` body scan stops exactly at the closing brace that
precedes the fence, provided the body has no whitespace or backticks. -/
theorem lazyBraceEnd_append : ∀ (body : List Char),
    (∀ c ∈ body, isWs c = false ∧ ¬ c = cBacktick) →
    ∀ tail, fenceFollows tail = true →
    lazyBraceEnd (body ++ cRBrace :: tail) = some (body ++ [cRBrace])
  | [] => by
    intro _ tail hf
    rw [List.nil_append]
    show lazyBraceEnd (cRBrace :: tail) = some [cRBrace]
    simp [lazyBraceEnd, hf]
  | c :: body2 => by
    intro h tail hf
    have ih := lazyBraceEnd_append body2
      (fun x hx => h x (List.mem_cons_of_mem c hx)) tail hf
    have hffY : fenceFollows (body2 ++ cRBrace :: tail) = false := by
      match body2, h with
      | [], h =>
        rw [List.nil_append]
        exact fenceFollows_false cRBrace tail (by decide) (by decide)
      | y :: ys, h =>
        have hy := h y (List.mem_cons_of_mem c (List.mem_cons_self y ys))
        rw [List.cons_append]
        exact fenceFollows_false y _ hy.1 hy.2
    rw [List.cons_append]
    simp only [lazyBraceEnd, hffY, Bool.and_false, Bool.false_eq_true,
      if_false, ih, Option.map_some]
    simp

theorem serializeInt_no_brace (n : Int) : ∀ c ∈ serializeInt n,
    ¬ c = cLBrace ∧ ¬ c = cRBrace := by
  intro c hc
  unfold serializeInt at hc
  split at hc
  · rcases List.mem_cons.mp hc with hc | hc
    · subst hc; exact ⟨by decide, by decide⟩
    · obtain ⟨_, hgn, _, _, hbr, _⟩ :=
        digitOut_fields c (natDigitsAux_digitOut _ _ c hc)
      exact ⟨hbr, goodNext_ne_rbrace c hgn⟩
  · obtain ⟨_, hgn, _, _, hbr, _⟩ :=
      digitOut_fields c (natDigitsAux_digitOut _ _ c hc)
    exact ⟨hbr, goodNext_ne_rbrace c hgn⟩

theorem braceSpanAux_cons_other (c : Char) (l : List Char) (d : Nat)
    (h1 : ¬ c = cLBrace) (h2 : ¬ c = cRBrace) :
    braceSpanAux (c :: l) d = (braceSpanAux l d).map (fun sp => c :: sp) := by
  simp [braceSpanAux, h1, h2]

theorem braceSpanAux_seg : ∀ (seg : List Char),
    (∀ c ∈ seg, ¬ c = cLBrace ∧ ¬ c = cRBrace) → ∀ (l : List Char) (d : Nat),
    braceSpanAux (seg ++ l) d = (braceSpanAux l d).map (fun sp => seg ++ sp)
  | [] => by
    intro _ l d
    rw [List.nil_append]
    cases braceSpanAux l d <;> simp
  | c :: seg2 => by
    intro h l d
    have hc := h c (List.mem_cons_self c seg2)
    have ih := braceSpanAux_seg seg2
      (fun x hx => h x (List.mem_cons_of_mem c hx)) l d
    rw [List.cons_append, braceSpanAux_cons_other c _ d hc.1 hc.2, ih]
    cases braceSpanAux l d <;> simp

mutual

theorem serialize_braceSpan : ∀ (v : Json), plainJson v = true →
    ∀ (l : List Char) (d : Nat), 1 ≤ d →
    braceSpanAux (serialize v ++ l) d =
      (braceSpanAux l d).map (fun sp => serialize v ++ sp)
  | .null, _ => by
    intro l d _
    exact braceSpanAux_seg _ (by decide) l d
  | .bool true, _ => by
    intro l d _
    exact braceSpanAux_seg _ (by decide) l d
  | .bool false, _ => by
    intro l d _
    exact braceSpanAux_seg _ (by decide) l d
  | .num n, _ => by
    intro l d _
    exact braceSpanAux_seg _ (serializeInt_no_brace n) l d
  | .str sl, hp => by
    intro l d _
    refine braceSpanAux_seg _ ?_ l d
    intro c hc
    simp only [serialize, List.mem_append, List.mem_singleton] at hc
    rcases hc with (hc | hc) | hc
    · subst hc; exact ⟨by decide, by decide⟩
    · have hf := plainChar_fields c
        (List.all_eq_true.mp (by simpa [plainJson] using hp) c hc)
      exact ⟨hf.2.2.2.2.2.2.2.1, hf.2.2.2.2.2.2.2.2.1⟩
    · subst hc; exact ⟨by decide, by decide⟩
  | .arr a, hp => by
    intro l d hd
    have heq : serialize (.arr a) ++ l =
        cLBrack :: (serializeArr a ++ (cRBrack :: l)) := by
      simp [serialize, List.append_assoc]
    rw [heq, braceSpanAux_cons_other cLBrack _ d (by decide) (by decide)]
    rw [serializeArr_braceSpan a (by simpa [plainJson] using hp) _ d hd]
    rw [braceSpanAux_cons_other cRBrack _ d (by decide) (by decide)]
    cases braceSpanAux l d <;> simp [serialize, List.append_assoc]
  | .obj o, hp => by
    intro l d hd
    have heq : serialize (.obj o) ++ l =
        cLBrace :: (serializeObj o ++ (cRBrace :: l)) := by
      simp [serialize, List.append_assoc]
    have hne : ¬ (d + 1 = 1) := by omega
    rw [heq]
    rw [show braceSpanAux (cLBrace :: (serializeObj o ++ (cRBrace :: l))) d =
        (braceSpanAux (serializeObj o ++ (cRBrace :: l)) (d + 1)).map
          (fun sp => cLBrace :: sp) from by
      simp [braceSpanAux]]
    rw [serializeObj_braceSpan o (by simpa [plainJson] using hp) _ (d + 1)
      (by omega)]
    rw [show braceSpanAux (cRBrace :: l) (d + 1) =
        (braceSpanAux l d).map (fun sp => cRBrace :: sp) from by
      simp [braceSpanAux, hne, (show ¬ (cRBrace = cLBrace) by decide)]]
    cases braceSpanAux l d <;> simp [serialize, List.append_assoc]

theorem serializeArr_braceSpan : ∀ (a : JsonArr), plainArr a = true →
    ∀ (l : List Char) (d : Nat), 1 ≤ d →
    braceSpanAux (serializeArr a ++ l) d =
      (braceSpanAux l d).map (fun sp => serializeArr a ++ sp)
  | .nil, _ => by
    intro l d _
    rw [show serializeArr .nil = [] from rfl, List.nil_append]
    cases braceSpanAux l d <;> simp
  | .cons v .nil, hp => by
    intro l d hd
    have hp' : (plainJson v && plainArr .nil) = true := hp
    rw [Bool.and_eq_true] at hp'
    rw [show serializeArr (.cons v .nil) = serialize v from by simp [serializeArr]]
    exact serialize_braceSpan v hp'.1 l d hd
  | .cons v (.cons w t2), hp => by
    intro l d hd
    have hp' : (plainJson v && plainArr (.cons w t2)) = true := hp
    rw [Bool.and_eq_true] at hp'
    have heq : serializeArr (.cons v (.cons w t2)) ++ l =
        serialize v ++ (cComma :: (serializeArr (.cons w t2) ++ l)) := by
      simp [serializeArr, List.append_assoc]
    rw [heq, serialize_braceSpan v hp'.1 _ d hd,
      braceSpanAux_cons_other cComma _ d (by decide) (by decide),
      serializeArr_braceSpan (.cons w t2) hp'.2 l d hd]
    cases braceSpanAux l d <;> simp [serializeArr, List.append_assoc]

theorem serializeObj_braceSpan : ∀ (o : JsonObj), plainObj o = true →
    ∀ (l : List Char) (d : Nat), 1 ≤ d →
    braceSpanAux (serializeObj o ++ l) d =
      (braceSpanAux l d).map (fun sp => serializeObj o ++ sp)
  | .nil, _ => by
    intro l d _
    rw [show serializeObj .nil = [] from rfl, List.nil_append]
    cases braceSpanAux l d <;> simp
  | .cons k v tail, hp => by
    intro l d hd
    have hk : ∀ c ∈ k, ¬ c = cLBrace ∧ ¬ c = cRBrace := by
      intro c hc
      have hka : k.all plainChar = true := by
        match tail, hp with
        | .nil, hp =>
          have hp' : (k.all plainChar && plainJson v &&
              !(JsonObj.hasKey k JsonObj.nil) && plainObj .nil) = true := hp
          simp only [Bool.and_eq_true] at hp'
          exact hp'.1.1.1
        | .cons k2 v2 r, hp =>
          have hp' : (k.all plainChar && plainJson v &&
              !(JsonObj.hasKey k (.cons k2 v2 r)) &&
              plainObj (.cons k2 v2 r)) = true := hp
          simp only [Bool.and_eq_true] at hp'
          exact hp'.1.1.1
      have hf := plainChar_fields c (List.all_eq_true.mp hka c hc)
      exact ⟨hf.2.2.2.2.2.2.2.1, hf.2.2.2.2.2.2.2.2.1⟩
    match tail, hp with
    | .nil, hp =>
      have hp' : (k.all plainChar && plainJson v &&
          !(JsonObj.hasKey k JsonObj.nil) && plainObj .nil) = true := hp
      simp only [Bool.and_eq_true] at hp'
      have heq : serializeObj (.cons k v .nil) ++ l =
          cQuote :: (k ++ (cQuote :: (cColon :: (serialize v ++ l)))) := by
        simp [serializeObj, List.append_assoc]
      rw [heq, braceSpanAux_cons_other cQuote _ d (by decide) (by decide),
        braceSpanAux_seg k hk _ d,
        braceSpanAux_cons_other cQuote _ d (by decide) (by decide),
        braceSpanAux_cons_other cColon _ d (by decide) (by decide),
        serialize_braceSpan v hp'.1.1.2 l d hd]
      cases braceSpanAux l d <;> simp [serializeObj, List.append_assoc]
    | .cons k2 v2 r, hp =>
      have hp' : (k.all plainChar && plainJson v &&
          !(JsonObj.hasKey k (.cons k2 v2 r)) &&
          plainObj (.cons k2 v2 r)) = true := hp
      simp only [Bool.and_eq_true] at hp'
      have heq : serializeObj (.cons k v (.cons k2 v2 r)) ++ l =
          cQuote :: (k ++ (cQuote :: (cColon :: (serialize v ++ (cComma ::
            (serializeObj (.cons k2 v2 r) ++ l)))))) := by
        simp [serializeObj, List.append_assoc]
      rw [heq, braceSpanAux_cons_other cQuote _ d (by decide) (by decide),
        braceSpanAux_seg k hk _ d,
        braceSpanAux_cons_other cQuote _ d (by decide) (by decide),
        braceSpanAux_cons_other cColon _ d (by decide) (by decide),
        serialize_braceSpan v hp'.1.1.2 _ d hd,
        braceSpanAux_cons_other cComma _ d (by decide) (by decide),
        serializeObj_braceSpan (.cons k2 v2 r) hp'.2 l d hd]
      cases braceSpanAux l d <;> simp [serializeObj, List.append_assoc]

end

theorem dropToLBrace_serialize (o : JsonObj) :
    dropToLBrace (serialize (.obj o)) = some (serialize (.obj o)) := by
  have heq : serialize (.obj o) = cLBrace :: (serializeObj o ++ [cRBrace]) := by
    simp [serialize]
  rw [heq]
  simp [dropToLBrace]

theorem braceSpan_serialize (o : JsonObj) (hp : plainObj o = true) :
    braceSpanAux (serialize (.obj o)) 0 = some (serialize (.obj o)) := by
  have heq : serialize (.obj o) =
      cLBrace :: (serializeObj o ++ (cRBrace :: [])) := by
    simp [serialize]
  rw [heq]
  rw [show braceSpanAux (cLBrace :: (serializeObj o ++ (cRBrace :: []))) 0 =
      (braceSpanAux (serializeObj o ++ (cRBrace :: [])) 1).map
        (fun sp => cLBrace :: sp) from by simp [braceSpanAux]]
  rw [serializeObj_braceSpan o hp _ 1 (by omega)]
  rw [show braceSpanAux (cRBrace :: []) 1 = some [cRBrace] from by
    simp [braceSpanAux, (show ¬ (cRBrace = cLBrace) by decide)]]
  simp

theorem strategy2_serialize (o : JsonObj) (hp : plainObj o = true) :
    strategy2 (serialize (.obj o)) = some (.obj o) := by
  simp only [strategy2, dropToLBrace_serialize o, braceSpan_serialize o hp]
  rw [clean_json_text_id _ (serializeObjFull_charOk o hp)
    (serialize_commaSafeS (.obj o) (by simpa [plainJson] using hp))]
  exact jsonLoads_serialize (.obj o) (by simpa [plainJson] using hp)

theorem skipWs_cons_of_ws (c : Char) (l : List Char) (h : isWs c = true) :
    skipWs (c :: l) = skipWs l := by
  simp [skipWs, h]

theorem tryFenceAt_fenced (o : JsonObj) (hp : plainObj o = true) :
    tryFenceAt true (Char.ofNat 106 :: Char.ofNat 115 :: Char.ofNat 111 ::
      Char.ofNat 110 :: cNewline :: cLBrace ::
      (serializeObj o ++ [cComma, cRBrace, cNewline, cBacktick, cBacktick,
        cBacktick])) =
      some (cLBrace :: (serializeObj o ++ [cComma, cRBrace])) := by
  have hbody : ∀ c ∈ serializeObj o ++ [cComma], isWs c = false ∧
      ¬ c = cBacktick := by
    intro c hc
    rcases List.mem_append.mp hc with hc | hc
    · have hf := charOutOk_fields c (serializeObj_charOk o hp c hc)
      exact ⟨hf.2.1, hf.2.2.1⟩
    · rcases List.mem_singleton.mp hc with hc
      subst hc
      exact ⟨by decide, by decide⟩
  have e1 : serializeObj o ++ [cComma, cRBrace, cNewline, cBacktick,
      cBacktick, cBacktick] =
      (serializeObj o ++ [cComma]) ++ (cRBrace ::
        [cNewline, cBacktick, cBacktick, cBacktick]) := by
    simp [List.append_assoc]
  have hlbe : lazyBraceEnd (serializeObj o ++ [cComma, cRBrace, cNewline,
      cBacktick, cBacktick, cBacktick]) =
      some (serializeObj o ++ [cComma, cRBrace]) := by
    rw [e1, lazyBraceEnd_append (serializeObj o ++ [cComma]) hbody _ (by decide)]
    simp [List.append_assoc]
  have hskip : skipWs (cNewline :: cLBrace :: (serializeObj o ++ [cComma,
      cRBrace, cNewline, cBacktick, cBacktick, cBacktick])) =
      cLBrace :: (serializeObj o ++ [cComma, cRBrace, cNewline, cBacktick,
        cBacktick, cBacktick]) := by
    rw [skipWs_cons_of_ws _ _ (by decide)]
    exact skipWs_cons_of_not_ws _ _ (by decide)
  simp only [tryFenceAt]
  simp [hskip, hlbe]

theorem findFenced_fenced (o : JsonObj) (hp : plainObj o = true) :
    findFenced true ((("```json" ++ "\n").data) ++
      ((cLBrace :: (serializeObj o ++ [cComma, cRBrace])) ++
        (("\n" ++ "```").data))) =
      some (cLBrace :: (serializeObj o ++ [cComma, cRBrace])) := by
  have hpre : ("```json" ++ "\n").data = [cBacktick, cBacktick, cBacktick,
      Char.ofNat 106, Char.ofNat 115, Char.ofNat 111, Char.ofNat 110,
      cNewline] := by decide
  have htail : ("\n" ++ "```").data =
      [cNewline, cBacktick, cBacktick, cBacktick] := by decide
  have htry := tryFenceAt_fenced o hp
  have hflat : (("```json" ++ "\n").data) ++
      ((cLBrace :: (serializeObj o ++ [cComma, cRBrace])) ++
        (("\n" ++ "```").data)) =
      cBacktick :: cBacktick :: cBacktick :: Char.ofNat 106 ::
        Char.ofNat 115 :: Char.ofNat 111 :: Char.ofNat 110 :: cNewline ::
        cLBrace :: (serializeObj o ++ [cComma, cRBrace, cNewline, cBacktick,
          cBacktick, cBacktick]) := by
    rw [hpre, htail]
    simp [List.append_assoc]
  rw [hflat]
  simp [findFenced, htry]

theorem bareOf_data (o : JsonObj) : (bareOf o).data = serialize (.obj o) := rfl

theorem fencedCommaOf_data (o : JsonObj) : (fencedCommaOf o).data =
    ("```json" ++ "\n").data ++
      ((cLBrace :: (serializeObj o ++ [cComma, cRBrace])) ++
        ("\n" ++ "```").data) := rfl

theorem safe_parse_bareOf (o : JsonObj) (hp : plainObj o = true) :
    safe_parse_json (bareOf o) = some (.obj o) := by
  have hshape : serialize (.obj o) =
      cLBrace :: (serializeObj o ++ [cRBrace]) := by
    simp [serialize]
  have hnonempty : ¬ ((bareOf o).data = []) := by
    rw [bareOf_data, hshape]
    simp
  have hstrip : pyStrip ((bareOf o).data) = serialize (.obj o) := by
    rw [bareOf_data, hshape]
    exact pyStrip_id cLBrace cRBrace (serializeObj o) (by decide) (by decide)
  have hnob : ∀ c ∈ serialize (.obj o), ¬ c = cBacktick :=
    fun c hc => (charOutOk_fields c (serializeObjFull_charOk o hp c hc)).2.2.1
  have hff1 : fenceParse true (serialize (.obj o)) = none := by
    unfold fenceParse
    rw [findFenced_none true _ hnob]
  have hff2 : fenceParse false (serialize (.obj o)) = none := by
    unfold fenceParse
    rw [findFenced_none false _ hnob]
  have hs2 := strategy2_serialize o hp
  unfold safe_parse_json
  simp only [hnonempty, if_false, hstrip, hff1, hff2, hs2]

theorem safe_parse_fencedCommaOf (o : JsonObj) (hp : plainObj o = true) :
    safe_parse_json (fencedCommaOf o) = some (.obj o) := by
  have hpre : ("```json" ++ "\n").data = [cBacktick, cBacktick, cBacktick,
      Char.ofNat 106, Char.ofNat 115, Char.ofNat 111, Char.ofNat 110,
      cNewline] := by decide
  have htail : ("\n" ++ "```").data =
      [cNewline, cBacktick, cBacktick, cBacktick] := by decide
  have hshape : (fencedCommaOf o).data = cBacktick ::
      ((cBacktick :: cBacktick :: Char.ofNat 106 :: Char.ofNat 115 ::
        Char.ofNat 111 :: Char.ofNat 110 :: cNewline ::
        ((cLBrace :: (serializeObj o ++ [cComma, cRBrace])) ++
          [cNewline, cBacktick, cBacktick])) ++ [cBacktick]) := by
    rw [fencedCommaOf_data, hpre, htail]
    simp [List.append_assoc]
  have hnonempty : ¬ ((fencedCommaOf o).data = []) := by
    rw [hshape]
    simp
  have hstrip : pyStrip ((fencedCommaOf o).data) = (fencedCommaOf o).data := by
    rw [hshape]
    exact pyStrip_id cBacktick cBacktick _ (by decide) (by decide)
  have hfp : fenceParse true ((fencedCommaOf o).data) = some (.obj o) := by
    unfold fenceParse
    rw [fencedCommaOf_data, findFenced_fenced o hp]
    show jsonLoads (clean_json_text (cLBrace ::
      (serializeObj o ++ [cComma, cRBrace]))) = some (.obj o)
    rw [clean_fenced_group o hp]
    exact jsonLoads_serialize (.obj o) (by simpa [plainJson] using hp)
  unfold safe_parse_json
  simp only [hnonempty, if_false, hstrip, hfp]

/-- C8 (amended): for every plain object — printable strings free of the
characters the regex strategies treat specially, and distinct keys — the
tolerant parser returns the same structured result on the ```json-fenced
serialization with a trailing comma before the closing brace as on the
bare, comma-free serialization, namely the object itself. -/
theorem C8_fenced_comma_agreement (o : JsonObj) (hp : plainObj o = true) :
    safe_parse_json (fencedCommaOf o) = safe_parse_json (bareOf o) ∧
    safe_parse_json (fencedCommaOf o) = some (.obj o) := by
  rw [safe_parse_fencedCommaOf o hp, safe_parse_bareOf o hp]
  exact ⟨rfl, rfl⟩

/-- Witness for the amended C8 at a concrete object. -/
theorem C8_fenced_comma_agreement_witness :
    safe_parse_json (fencedCommaOf (.cons ("a").data (.num 1) .nil)) =
      safe_parse_json (bareOf (.cons ("a").data (.num 1) .nil)) ∧
    safe_parse_json (fencedCommaOf (.cons ("a").data (.num 1) .nil)) =
      some (.obj (.cons ("a").data (.num 1) .nil)) :=
  C8_fenced_comma_agreement (.cons ("a").data (.num 1) .nil) (by decide)

end POSCO

